import Mathlib

/-!
# Verification of the BPO-Certification-Web-Scraper crawler

This file is a shallow embedding, in Lean 4, of the core of `scraper.py`:

* the URL machinery of CPython 3.11's `urllib.parse` (`urlsplit`, `urlparse`,
  `urlunsplit`, `urlunparse`, `urljoin`), on which `normalize_url`,
  `is_same_domain` and `find_internal_links` are built;
* the repository's own functions `read_urls`, `is_same_domain`,
  `normalize_url`, `find_internal_links`, `fetch` and `scan_site`.

Strings are modelled as `List Char` (`Str`).  Python `str` methods used by
the code (`strip`, `rstrip`, `lower`, `startswith`, `in`, `find`, `rfind`,
`split`) are given faithful structural definitions.  Case mapping is the
ASCII case mapping (the code only compares ASCII hosts, keywords and
schemes; full Unicode case folding of exotic characters is out of scope).

`urllib.parse.urlsplit` raises `ValueError` on a netloc that contains `[`
without `]` (or vice versa); functions that can raise are modelled in
`Except Unit`.  Two stdlib details are deliberately not modelled: the
NFKC check of `_checknetloc` (which can only raise for non-ASCII netlocs)
and behaviour for inputs containing NUL-style control characters beyond
`\t`, `\r`, `\n` (which CPython 3.11 removes; we remove them too).

External collaborators of `scan_site` are abstracted as parameters of
`ScanEnv`:

* `web` models `fetch` as seen by the crawl loop: `none` means the fetch
  raised `requests.RequestException`, `some html` a successful body;
* `anchors` models BeautifulSoup's `soup.find_all("a", href=True)`
  extraction, returning the list of raw `href` attribute values in
  document order;
* `extract_text`, `match_certifications`, `match_remote` model
  `extract_text` / pattern matching (regular-expression machinery is not
  needed by any claim below).

The `fetch`/`raise_for_status` contract of the `requests` library is
modelled separately (`GetOutcome`, `fetch`).
-/

set_option maxHeartbeats 4000000

namespace Scraper

/-- Python strings, modelled as lists of characters. -/
abbrev Str := List Char

/-- Python's `str.lower` restricted to the ASCII case mapping. -/
def pyLower (s : Str) : Str := s.map Char.toLower

/-- The characters Python's `str.strip()` removes (ASCII whitespace). -/
def pySpace (c : Char) : Bool :=
  c = ' ' || c = '\t' || c = '\n' || c = '\r' || c = '\x0b' || c = '\x0c'

/-- Python's `str.strip()` with no argument: drop whitespace on both ends. -/
def pyStrip (s : Str) : Str :=
  ((s.dropWhile (fun c => pySpace c)).reverse.dropWhile (fun c => pySpace c)).reverse

/-- Python's `str.rstrip("/")`: drop trailing `'/'` characters. -/
def rstripSlash (s : Str) : Str :=
  (s.reverse.dropWhile (fun c => c = '/')).reverse

/-- `beginsWith s p` is Python's `s.startswith(p)` (case sensitive). -/
def beginsWith : Str → Str → Bool
  | _, [] => true
  | [], _ :: _ => false
  | c :: s, d :: p => c = d && beginsWith s p

/-- `hasSub needle hay` is Python's `needle in hay` substring test. -/
def hasSub (needle : Str) : Str → Bool
  | [] => needle.isEmpty
  | c :: t => beginsWith (c :: t) needle || hasSub needle t

/-- Split a string at the first occurrence of `c` (the separator removed),
`none` when `c` does not occur: Python's `s.split(c, 1)` / `s.find(c)`. -/
def splitFirst (c : Char) : Str → Option (Str × Str)
  | [] => none
  | a :: t =>
    if a = c then some ([], t)
    else (splitFirst c t).map (fun p => (a :: p.1, p.2))

/-- Split a string at the last occurrence of `c`: the second component
contains no `c`.  Mirrors Python's `s.rfind(c)` based splitting. -/
def splitLast (c : Char) (s : Str) : Option (Str × Str) :=
  match splitFirst c s.reverse with
  | none => none
  | some (rb, ra) => some (ra.reverse, rb.reverse)

/-- Python's `s.split(c)` (full split; `''.split(c) == ['']`). -/
def pySplit (c : Char) : Str → List Str
  | [] => [[]]
  | a :: t =>
    if a = c then [] :: pySplit c t
    else
      match pySplit c t with
      | [] => [[a]]
      | s :: rest => (a :: s) :: rest

/-! ## `urllib.parse` (CPython 3.11) -/

/-- `urllib.parse.scheme_chars` membership: ASCII letters, digits, `+-.` . -/
def scheme_char (c : Char) : Bool :=
  c.isAlpha || c.isDigit || c = '+' || c = '-' || c = '.'

/-- `urlsplit` first removes the WHATWG-unsafe bytes tab, CR and LF. -/
def cleanUrl (s : Str) : Str :=
  s.filter (fun c => !(c = '\t' || c = '\r' || c = '\n'))

/-- `urllib.parse.uses_relative`. -/
def uses_relative : List Str :=
  ["", "ftp", "http", "gopher", "nntp", "imap", "wais", "file", "https",
   "shttp", "mms", "prospero", "rtsp", "rtspu", "sftp", "svn", "svn+ssh",
   "ws", "wss"].map String.data

/-- `urllib.parse.uses_netloc`. -/
def uses_netloc : List Str :=
  ["", "ftp", "http", "gopher", "nntp", "telnet", "imap", "wais", "file",
   "mms", "https", "shttp", "snews", "prospero", "rtsp", "rtspu", "rsync",
   "svn", "svn+ssh", "sftp", "nfs", "git", "git+ssh", "ws", "wss"].map String.data

/-- `urllib.parse.uses_params`. -/
def uses_params : List Str :=
  ["", "ftp", "hdl", "prospero", "http", "imap", "https", "shttp", "rtsp",
   "rtspu", "sip", "sips", "mms", "sftp", "tel"].map String.data

/-- The result of `urllib.parse.urlsplit`. -/
structure SplitResult where
  scheme : Str
  netloc : Str
  path : Str
  query : Str
  fragment : Str
deriving DecidableEq, Repr

/-- The result of `urllib.parse.urlparse` (`SplitResult` plus `params`). -/
structure ParseResult where
  scheme : Str
  netloc : Str
  path : Str
  params : Str
  query : Str
  fragment : Str
deriving DecidableEq, Repr

/-- The delimiters `_splitnetloc` stops at. -/
def netlocDelim (c : Char) : Bool := c = '/' || c = '?' || c = '#'

/-- Scheme detection step of `urlsplit`: on `pre ++ ':' :: post` with a
valid scheme `pre` (nonempty, leading ASCII letter, all scheme chars),
yield the lowercased scheme and the remainder; otherwise the default
scheme and the unchanged url. -/
def schemeSplit (dsch : Str) (url : Str) : Str × Str :=
  match splitFirst ':' url with
  | none => (dsch, url)
  | some (pre, post) =>
    match pre with
    | [] => (dsch, url)
    | c0 :: _ =>
      if c0.isAlpha ∧ pre.all (fun c => scheme_char c) then (pyLower pre, post)
      else (dsch, url)

/-- The mismatched-bracket condition on which `urlsplit` raises
`ValueError("Invalid IPv6 URL")`. -/
def bracketBad (n : Str) : Prop :=
  ('[' ∈ n ∧ ']' ∉ n) ∨ (']' ∈ n ∧ '[' ∉ n)

instance (n : Str) : Decidable (bracketBad n) := by
  unfold bracketBad
  infer_instance

/-- `_splitnetloc(url, 2)` guarded by `url[:2] == '//'`: on `'//'`-led
input, the netloc is everything up to the first `/`, `?` or `#` after
the two slashes; otherwise no netloc. -/
def netlocSplit (rest : Str) : Str × Str :=
  match rest with
  | '/' :: '/' :: r2 =>
    (r2.takeWhile (fun c => !netlocDelim c), r2.dropWhile (fun c => !netlocDelim c))
  | _ => ([], rest)

/-- `if c in url: url.split(c, 1)`: split at the first occurrence of
`c` when present, else keep the whole string. -/
def cutFirst (c : Char) (s : Str) : Str × Str :=
  match splitFirst c s with
  | none => (s, [])
  | some p => p

/-- `urllib.parse.urlsplit`.  `.error ()` models the `ValueError`
("Invalid IPv6 URL") raised on a netloc containing `[` without `]` or
`]` without `[`. -/
def urlsplit (url0 : Str) (default_scheme : Str := []) : Except Unit SplitResult :=
  let url1 := cleanUrl url0
  let dsch := cleanUrl default_scheme
  let sp := schemeSplit dsch url1
  let np := netlocSplit sp.2
  if bracketBad np.1 then .error ()
  else
    let fp := cutFirst '#' np.2
    let qp := cutFirst '?' fp.1
    .ok ⟨sp.1, np.1, qp.1, qp.2, fp.2⟩

/-- `urllib.parse._splitparams`: split `params` off the last path
segment (only called when `';'` occurs in the path). -/
def splitparams (p : Str) : Str × Str :=
  if '/' ∈ p then
    match splitLast '/' p with
    | some (a, b) =>
      match splitFirst ';' b with
      | none => (p, [])
      | some (b1, b2) => (a ++ '/' :: b1, b2)
    | none => (p, [])
  else
    match splitFirst ';' p with
    | none => (p, [])
    | some (a, b) => (a, b)

/-- `urllib.parse.urlparse`. -/
def urlparse (url : Str) (default_scheme : Str := []) : Except Unit ParseResult := do
  let s ← urlsplit url default_scheme
  if s.scheme ∈ uses_params ∧ ';' ∈ s.path then
    let pp := splitparams s.path
    .ok ⟨s.scheme, s.netloc, pp.1, pp.2, s.query, s.fragment⟩
  else
    .ok ⟨s.scheme, s.netloc, s.path, [], s.query, s.fragment⟩

/-- The `if url and url[:1] != '/': url = '/' + url` step of
`urlunsplit`. -/
def slashPath (url : Str) : Str :=
  if url ≠ [] ∧ url.take 1 ≠ ['/'] then '/' :: url else url

/-- `urllib.parse.urlunsplit` (CPython 3.11). -/
def urlunsplit (scheme netloc path query fragment : Str) : Str :=
  let url := path
  let url :=
    if netloc ≠ [] ∨ (scheme ≠ [] ∧ scheme ∈ uses_netloc ∧ url.take 2 ≠ ['/', '/']) then
      '/' :: '/' :: (netloc ++ slashPath url)
    else url
  let url := if scheme ≠ [] then scheme ++ ':' :: url else url
  let url := if query ≠ [] then url ++ '?' :: query else url
  if fragment ≠ [] then url ++ '#' :: fragment else url

/-- `url = "%s;%s" % (url, params) if params` of `urlunparse`. -/
def rejoinParams (path params : Str) : Str :=
  if params ≠ [] then path ++ ';' :: params else path

/-- `urllib.parse.urlunparse`, i.e. `ParseResult.geturl`. -/
def urlunparse (p : ParseResult) : Str :=
  urlunsplit p.scheme p.netloc (rejoinParams p.path p.params) p.query p.fragment

/-- Keep only nonempty interior elements, preserving the first and last
element: Python's `segments[1:-1] = filter(None, segments[1:-1])` applied
to the tail of a list whose head is kept separately. -/
def filterInner : List Str → List Str
  | [] => []
  | [a] => [a]
  | a :: t => if a = [] then filterInner t else a :: filterInner t

/-- The `..` / `.` resolution loop of `urljoin` (`resolved_path`). -/
def resolveSegs (acc : List Str) : List Str → List Str
  | [] => acc
  | seg :: t =>
    if seg = ['.', '.'] then resolveSegs acc.dropLast t
    else if seg = ['.'] then resolveSegs acc t
    else resolveSegs (acc ++ [seg]) t

/-- `urllib.parse.urljoin` (CPython 3.11). -/
def urljoin (base url : Str) : Except Unit Str :=
  if base = [] then .ok url
  else if url = [] then .ok base
  else do
    let b ← urlparse base []
    let u ← urlparse url b.scheme
    if u.scheme ≠ b.scheme ∨ u.scheme ∉ uses_relative then .ok url
    else
      if u.scheme ∈ uses_netloc ∧ u.netloc ≠ [] then
        .ok (urlunparse u)
      else
        let netloc := if u.scheme ∈ uses_netloc then b.netloc else u.netloc
        if u.path = [] ∧ u.params = [] then
          let query := if u.query = [] then b.query else u.query
          .ok (urlunparse ⟨u.scheme, netloc, b.path, b.params, query, u.fragment⟩)
        else
          let base_parts := pySplit '/' b.path
          let base_parts :=
            if base_parts.getLast? ≠ some [] then base_parts.dropLast else base_parts
          let segments :=
            if u.path.take 1 = ['/'] then pySplit '/' u.path
            else
              match base_parts ++ pySplit '/' u.path with
              | [] => []
              | x :: xs => x :: filterInner xs
          let resolved := resolveSegs [] segments
          let resolved :=
            if segments.getLast? = some ['.'] ∨ segments.getLast? = some ['.', '.'] then
              resolved ++ [[]]
            else resolved
          let joined := List.intercalate ['/'] resolved
          let path := if joined = [] then ['/'] else joined
          .ok (urlunparse ⟨u.scheme, netloc, path, u.params, u.query, u.fragment⟩)

/-! ## `scraper.py`: URL helpers -/

/-- `scraper.read_urls`, applied to the file's lines (file iteration
yields each line, trailing newline included): keep `line.strip()` for
every line whose `strip()` is nonempty and that does not itself start
with `'#'`. -/
def read_urls : List Str → List Str
  | [] => []
  | line :: rest =>
    if pyStrip line ≠ [] ∧ ¬(beginsWith line ['#'] = true) then
      pyStrip line :: read_urls rest
    else read_urls rest

/-- `scraper.is_same_domain`: case-insensitive equality of the two
parsed netlocs. -/
def is_same_domain (base target : Str) : Except Unit Bool := do
  let b ← urlparse base
  let t ← urlparse target
  .ok (pyLower b.netloc == pyLower t.netloc)

/-- `scraper.normalize_url`:
`urlparse(url)._replace(fragment="").geturl().rstrip("/") or normalized`. -/
def normalize_url (url : Str) : Except Unit Str := do
  let parsed ← urlparse url
  let normalized := urlunparse { parsed with fragment := [] }
  let r := rstripSlash normalized
  .ok (if r = [] then normalized else r)

/-- `scraper.LINK_KEYWORDS`. -/
def LINK_KEYWORDS : List Str :=
  ["security", "compliance", "certification", "certifications", "privacy",
   "trust", "governance"].map String.data

/-- `any(keyword in href.lower() for keyword in LINK_KEYWORDS)`. -/
def keywordHit (href : Str) : Bool :=
  LINK_KEYWORDS.any (fun k => hasSub k (pyLower href))

/-- The anchor loop of `scraper.find_internal_links`, acting on the list
of raw `href` attribute values extracted by BeautifulSoup: strip each
href, skip `mailto:`/`tel:` prefixes, resolve against the base, keep
same-domain hrefs containing a keyword, normalized. -/
def gatherLinks (base_url : Str) : List Str → Except Unit (List Str)
  | [] => .ok []
  | h :: t =>
    let href := pyStrip h
    if beginsWith href "mailto:".data = true ∨ beginsWith href "tel:".data = true then
      gatherLinks base_url t
    else do
      let absolute ← urljoin base_url href
      let sd ← is_same_domain base_url absolute
      if sd = true ∧ keywordHit href = true then do
        let n ← normalize_url absolute
        let rest ← gatherLinks base_url t
        .ok (n :: rest)
      else gatherLinks base_url t

/-- Helper for `pyDictFromKeys`: drop elements already in `seen`,
keeping the first occurrence of every element. -/
def dedupKeep (seen : List Str) : List Str → List Str
  | [] => []
  | a :: t => if a ∈ seen then dedupKeep seen t else a :: dedupKeep (a :: seen) t

/-- Python's `list(dict.fromkeys(links))`: remove duplicates keeping the
first occurrence of each element, preserving order. -/
def pyDictFromKeys (l : List Str) : List Str := dedupKeep [] l

/-- `scraper.find_internal_links` (with BeautifulSoup's anchor extraction
abstracted into the given href list). -/
def find_internal_links (base_url : Str) (hrefs : List Str) : Except Unit (List Str) := do
  let links ← gatherLinks base_url hrefs
  .ok (pyDictFromKeys links)

/-! ## `scraper.fetch` over the `requests` contract -/

/-- An HTTP response as seen by `requests.get` (after any automatic
redirect following): final status code and body text. -/
structure Response where
  status_code : Nat
  text : Str
deriving DecidableEq, Repr

/-- Outcome of `requests.get(url, ...)`: either it raised a
`requests.RequestException` (connection failure, timeout, ...) or it
returned a `Response`. -/
inductive GetOutcome where
  | exn
  | resp (r : Response)
deriving DecidableEq, Repr

/-- `requests.Response.raise_for_status` raises `HTTPError` exactly for
status codes in `[400, 600)`. -/
def raise_for_status (r : Response) : Bool :=
  400 ≤ r.status_code ∧ r.status_code < 600

/-- `scraper.fetch`: `requests.get(...)` then `raise_for_status()` then
`response.text`.  `.error ()` is a raised `requests.RequestException`
(every `HTTPError` is a `RequestException`). -/
def fetch (o : GetOutcome) : Except Unit Str :=
  match o with
  | .exn => .error ()
  | .resp r => if raise_for_status r = true then .error () else .ok r.text

/-! ## `scraper.scan_site` -/

/-- The collaborators and configuration of one `scan_site` call.  `web`
is the crawl loop's view of `fetch` (`none` = the fetch raised a
`RequestException`); `anchors` is BeautifulSoup's href extraction;
`extract_text` / `match_certifications` / `match_remote` model
`extract_text`, `match_certifications`, `match_remote_environment_mentions`.
`max_pages` is a Python `int`, `delay` a Python float (modelled as `ℚ`;
only its truthiness `delay != 0` matters to control flow). -/
structure ScanEnv where
  web : Str → Option Str
  anchors : Str → List Str
  extract_text : Str → Str
  match_certifications : Str → Finset String
  match_remote : Str → Finset String
  max_pages : Int
  delay : ℚ

/-- Observable events of one crawl, in order: each fetch attempt
(successful or raising) and each `time.sleep(delay)` call. -/
inductive Event where
  | fetchOk (url : Str)
  | fetchFail (url : Str)
  | sleep
deriving DecidableEq, Repr

/-- The URLs of the fetch attempts in a trace, in order. -/
def fetchedUrls : List Event → List Str
  | [] => []
  | .fetchOk u :: t => u :: fetchedUrls t
  | .fetchFail u :: t => u :: fetchedUrls t
  | .sleep :: t => fetchedUrls t

/-- The mutable state of `scan_site`'s while loop (`queue`, `seen`,
accumulated label sets, counters), plus the event trace. -/
structure CrawlState where
  queue : List Str
  seen : List Str
  certifications : Finset String
  remote : Finset String
  pages_scanned : Nat
  pages_with_hits : Nat
  trace : List Event

/-- The `while queue and pages_scanned < max_pages` loop of
`scan_site`, one Lean recursion step per Python iteration. -/
def scanLoop (env : ScanEnv) (st : CrawlState) : Except Unit CrawlState :=
  match hq : st.queue with
  | [] => .ok st
  | current :: rest =>
    if hb : ¬((st.pages_scanned : Int) < env.max_pages) then .ok st
    else if current ∈ st.seen then
      scanLoop env { st with queue := rest }
    else
      let st1 : CrawlState := { st with queue := rest, seen := current :: st.seen }
      match env.web current with
      | none => scanLoop env { st1 with trace := st1.trace ++ [.fetchFail current] }
      | some html =>
        let text := env.extract_text html
        let page_matches := env.match_certifications text
        let remote_matches := env.match_remote text
        let sleepTrace : List Event := if env.delay ≠ 0 then [.sleep] else []
        let st2 : CrawlState := { st1 with
          pages_scanned := st1.pages_scanned + 1,
          trace := st1.trace ++ [.fetchOk current],
          pages_with_hits :=
            if page_matches ≠ ∅ then st1.pages_with_hits + 1 else st1.pages_with_hits,
          certifications :=
            if page_matches ≠ ∅ then st1.certifications ∪ page_matches
            else st1.certifications,
          remote :=
            if remote_matches ≠ ∅ then st1.remote ∪ remote_matches else st1.remote }
        if (st2.pages_scanned : Int) < env.max_pages then
          match find_internal_links current (env.anchors html) with
          | .error e => .error e
          | .ok links =>
            scanLoop env { st2 with
              queue := st2.queue ++ links.filter (fun l => l ∉ st2.seen),
              trace := st2.trace ++ sleepTrace }
        else
          scanLoop env { st2 with trace := st2.trace ++ sleepTrace }
termination_by ((env.max_pages - st.pages_scanned).toNat, st.queue.length)
decreasing_by
  · apply Prod.Lex.right
    simp [hq]
  · apply Prod.Lex.right
    simp [hq]
  · apply Prod.Lex.left
    have h' : (st.pages_scanned : Int) < env.max_pages := not_not.mp hb
    omega
  · apply Prod.Lex.left
    have h' : (st.pages_scanned : Int) < env.max_pages := not_not.mp hb
    omega

/-- `scan_site` up to (and including) loop exit: normalize the seed,
run the loop from the initial state.  `.error ()` is a `ValueError`
escaping `scan_site` (URL parsing). -/
def scanSiteFull (env : ScanEnv) (url : Str) : Except Unit CrawlState := do
  let n ← normalize_url url
  scanLoop env ⟨[n], [], ∅, ∅, 0, 0, []⟩

/-! ### Unfolding lemmas for `scanLoop`, one per loop branch -/

/-- Loop exit on empty frontier. -/
theorem scanLoop_nil (env : ScanEnv) (st : CrawlState) (h : st.queue = []) :
    scanLoop env st = .ok st := by
  rw [scanLoop.eq_def]
  split
  · rfl
  · simp_all

/-- Loop exit on exhausted page budget (also covers the empty queue). -/
theorem scanLoop_stop (env : ScanEnv) (st : CrawlState)
    (h : ¬((st.pages_scanned : Int) < env.max_pages)) : scanLoop env st = .ok st := by
  rw [scanLoop.eq_def]
  split
  · rfl
  · rw [dif_pos h]

/-- Dequeuing a URL already in `seen`: skipped, nothing else changes. -/
theorem scanLoop_skip (env : ScanEnv) (st : CrawlState) (current : Str) (rest : List Str)
    (hq : st.queue = current :: rest) (hb : (st.pages_scanned : Int) < env.max_pages)
    (hs : current ∈ st.seen) :
    scanLoop env st = scanLoop env { st with queue := rest } := by
  rw [scanLoop.eq_def]
  split
  · simp_all
  · rename_i current' rest' heq
    rw [hq] at heq
    cases heq
    rw [dif_neg (not_not.mpr hb), if_pos hs]

/-- Dequeuing a fresh URL whose fetch raises: it is marked seen, the
failure is recorded, the loop continues (no sleep). -/
theorem scanLoop_fail (env : ScanEnv) (st : CrawlState) (current : Str) (rest : List Str)
    (hq : st.queue = current :: rest) (hb : (st.pages_scanned : Int) < env.max_pages)
    (hs : current ∉ st.seen) (hw : env.web current = none) :
    scanLoop env st = scanLoop env { st with
      queue := rest, seen := current :: st.seen,
      trace := st.trace ++ [.fetchFail current] } := by
  rw [scanLoop.eq_def]
  split
  · simp_all
  · rename_i current' rest' heq
    rw [hq] at heq
    cases heq
    rw [dif_neg (not_not.mpr hb), if_neg hs, hw]

/-- The state after processing a successfully fetched page, before link
extraction: counters bumped, label sets updated, fetch recorded. -/
def pageState (env : ScanEnv) (st : CrawlState) (current : Str) (rest : List Str)
    (html : Str) : CrawlState :=
  let text := env.extract_text html
  let page_matches := env.match_certifications text
  let remote_matches := env.match_remote text
  { queue := rest, seen := current :: st.seen,
    certifications :=
      if page_matches ≠ ∅ then st.certifications ∪ page_matches else st.certifications,
    remote := if remote_matches ≠ ∅ then st.remote ∪ remote_matches else st.remote,
    pages_scanned := st.pages_scanned + 1,
    pages_with_hits :=
      if page_matches ≠ ∅ then st.pages_with_hits + 1 else st.pages_with_hits,
    trace := st.trace ++ [.fetchOk current] }

/-- The trace suffix of `if delay: time.sleep(delay)`. -/
def sleepSuffix (env : ScanEnv) : List Event := if env.delay ≠ 0 then [.sleep] else []

/-- Successful fetch with the budget exhausted by this page: no link
extraction, sleep, continue. -/
theorem scanLoop_succ_last (env : ScanEnv) (st : CrawlState) (current : Str)
    (rest : List Str) (html : Str)
    (hq : st.queue = current :: rest) (hb : (st.pages_scanned : Int) < env.max_pages)
    (hs : current ∉ st.seen) (hw : env.web current = some html)
    (hfull : ¬(((st.pages_scanned + 1 : Nat) : Int) < env.max_pages)) :
    scanLoop env st =
      scanLoop env { pageState env st current rest html with
        trace := (pageState env st current rest html).trace ++ sleepSuffix env } := by
  rw [scanLoop.eq_def]
  split
  · simp_all
  · rename_i current' rest' heq
    rw [hq] at heq
    cases heq
    rw [dif_neg (not_not.mpr hb), if_neg hs, hw]
    simp only []
    rw [if_neg (by exact_mod_cast hfull)]
    rfl

/-- Successful fetch with budget remaining and link extraction raising a
`ValueError`: the whole crawl raises. -/
theorem scanLoop_succ_err (env : ScanEnv) (st : CrawlState) (current : Str)
    (rest : List Str) (html : Str) (e : Unit)
    (hq : st.queue = current :: rest) (hb : (st.pages_scanned : Int) < env.max_pages)
    (hs : current ∉ st.seen) (hw : env.web current = some html)
    (hmore : ((st.pages_scanned + 1 : Nat) : Int) < env.max_pages)
    (hl : find_internal_links current (env.anchors html) = .error e) :
    scanLoop env st = .error e := by
  rw [scanLoop.eq_def]
  split
  · simp_all
  · rename_i current' rest' heq
    rw [hq] at heq
    cases heq
    rw [dif_neg (not_not.mpr hb), if_neg hs, hw]
    simp only []
    rw [if_pos (by exact_mod_cast hmore), hl]

/-- Successful fetch with budget remaining: unseen extracted links are
enqueued, sleep, continue. -/
theorem scanLoop_succ_more (env : ScanEnv) (st : CrawlState) (current : Str)
    (rest : List Str) (html : Str) (links : List Str)
    (hq : st.queue = current :: rest) (hb : (st.pages_scanned : Int) < env.max_pages)
    (hs : current ∉ st.seen) (hw : env.web current = some html)
    (hmore : ((st.pages_scanned + 1 : Nat) : Int) < env.max_pages)
    (hl : find_internal_links current (env.anchors html) = .ok links) :
    scanLoop env st =
      scanLoop env { pageState env st current rest html with
        queue := rest ++ links.filter (fun l => l ∉ current :: st.seen),
        trace := (pageState env st current rest html).trace ++ sleepSuffix env } := by
  rw [scanLoop.eq_def]
  split
  · simp_all
  · rename_i current' rest' heq
    rw [hq] at heq
    cases heq
    rw [dif_neg (not_not.mpr hb), if_neg hs, hw]
    simp only []
    rw [if_pos (by exact_mod_cast hmore), hl]
    rfl

/-- Master invariant lemma: any property preserved by the four
progressing loop branches is carried from the initial to the final state
of a terminating `scanLoop` run. -/
theorem scanLoop_preserve (env : ScanEnv) (P : CrawlState → Prop)
    (hskip : ∀ st current rest, st.queue = current :: rest →
      (st.pages_scanned : Int) < env.max_pages → current ∈ st.seen →
      P st → P { st with queue := rest })
    (hfail : ∀ st current rest, st.queue = current :: rest →
      (st.pages_scanned : Int) < env.max_pages → current ∉ st.seen →
      env.web current = none →
      P st → P { st with
        queue := rest, seen := current :: st.seen,
        trace := st.trace ++ [.fetchFail current] })
    (hlast : ∀ st current rest html, st.queue = current :: rest →
      (st.pages_scanned : Int) < env.max_pages → current ∉ st.seen →
      env.web current = some html →
      P st → P { pageState env st current rest html with
        trace := (pageState env st current rest html).trace ++ sleepSuffix env })
    (hmore : ∀ st current rest html links, st.queue = current :: rest →
      (st.pages_scanned : Int) < env.max_pages → current ∉ st.seen →
      env.web current = some html →
      find_internal_links current (env.anchors html) = .ok links →
      P st → P { pageState env st current rest html with
        queue := rest ++ links.filter (fun l => l ∉ current :: st.seen),
        trace := (pageState env st current rest html).trace ++ sleepSuffix env }) :
    ∀ st st', scanLoop env st = .ok st' → P st → P st' := by
  intro st
  induction st using scanLoop.induct env with
  | case1 x hq =>
    intro st' hrun hP
    rw [scanLoop_nil env x hq] at hrun
    cases hrun
    exact hP
  | case2 x current rest hq hb =>
    intro st' hrun hP
    rw [scanLoop_stop env x hb] at hrun
    cases hrun
    exact hP
  | case3 x current rest hq hb hs ih =>
    intro st' hrun hP
    rw [scanLoop_skip env x current rest hq (not_not.mp hb) hs] at hrun
    exact ih st' hrun (hskip x current rest hq (not_not.mp hb) hs hP)
  | case4 x current rest hq hb hs st1 hw ih =>
    intro st' hrun hP
    rw [scanLoop_fail env x current rest hq (not_not.mp hb) hs hw] at hrun
    exact ih st' hrun (hfail x current rest hq (not_not.mp hb) hs hw hP)
  | case5 x current rest hq hb hs st1 html hw text pm rm st2 hlt e herr =>
    intro st' hrun hP
    rw [scanLoop_succ_err env x current rest html e hq (not_not.mp hb) hs hw
      (by exact_mod_cast hlt) herr] at hrun
    cases hrun
  | case6 x current rest hq hb hs st1 html hw text pm rm sleepT st2 hlt links hok ih =>
    intro st' hrun hP
    rw [scanLoop_succ_more env x current rest html links hq (not_not.mp hb) hs hw
      (by exact_mod_cast hlt) hok] at hrun
    exact ih st' hrun
      (hmore x current rest html links hq (not_not.mp hb) hs hw hok hP)
  | case7 x current rest hq hb hs st1 html hw text pm rm sleepT st2 hfull ih =>
    intro st' hrun hP
    rw [scanLoop_succ_last env x current rest html hq (not_not.mp hb) hs hw
      (by exact_mod_cast hfull)] at hrun
    exact ih st' hrun (hlast x current rest html hq (not_not.mp hb) hs hw hP)

/-- `scraper.ScanResult`. -/
structure ScanResult where
  url : Str
  certifications : Finset String
  remote_environment_mentions : Finset String
  pages_scanned : Nat
  pages_with_hits : Nat
deriving DecidableEq

/-- `scraper.scan_site`: the final `ScanResult` (with the caller's
original, un-normalized `url`). -/
def scan_site (env : ScanEnv) (url : Str) : Except Unit ScanResult := do
  let st ← scanSiteFull env url
  .ok ⟨url, st.certifications, st.remote, st.pages_scanned, st.pages_with_hits⟩

/-! ## Helper lemmas for the crawl loop -/

@[simp]
theorem okBind {α β : Type} (a : α) (f : α → Except Unit β) :
    ((Except.ok a : Except Unit α) >>= f) = f a := rfl

@[simp]
theorem errBind {α β : Type} (e : Unit) (f : α → Except Unit β) :
    ((Except.error e : Except Unit α) >>= f) = .error e := rfl

/-- Destructure a successful `scanSiteFull` run. -/
theorem scanSiteFull_elim {env : ScanEnv} {url : Str} {st : CrawlState}
    (h : scanSiteFull env url = .ok st) :
    ∃ n, normalize_url url = .ok n ∧
      scanLoop env ⟨[n], [], ∅, ∅, 0, 0, []⟩ = .ok st := by
  unfold scanSiteFull at h
  cases hn : normalize_url url with
  | error e => rw [hn] at h; cases h
  | ok n => rw [hn] at h; exact ⟨n, rfl, h⟩

/-- Destructure a successful `scan_site` run. -/
theorem scan_site_elim {env : ScanEnv} {url : Str} {r : ScanResult}
    (h : scan_site env url = .ok r) :
    ∃ st, scanSiteFull env url = .ok st ∧
      r = ⟨url, st.certifications, st.remote, st.pages_scanned, st.pages_with_hits⟩ := by
  unfold scan_site at h
  cases hf : scanSiteFull env url with
  | error e => rw [hf] at h; cases h
  | ok st => rw [hf] at h; cases h; exact ⟨st, rfl, rfl⟩

theorem fetchedUrls_append (a b : List Event) :
    fetchedUrls (a ++ b) = fetchedUrls a ++ fetchedUrls b := by
  induction a with
  | nil => rfl
  | cons e t ih => cases e <;> simp [fetchedUrls, ih]

/-- Every member of `gatherLinks`' output is a `normalize_url` image. -/
theorem gatherLinks_mem_norm (base : Str) (hrefs : List Str) (links : List Str)
    (h : gatherLinks base hrefs = .ok links) :
    ∀ l ∈ links, ∃ a, normalize_url a = .ok l := by
  induction hrefs generalizing links with
  | nil =>
    cases h
    intro l hl
    cases hl
  | cons hd tl ih =>
    intro l hl
    rw [gatherLinks] at h
    by_cases hmt : beginsWith (pyStrip hd) "mailto:".data = true ∨
        beginsWith (pyStrip hd) "tel:".data = true
    · rw [if_pos hmt] at h
      exact ih links h l hl
    · rw [if_neg hmt] at h
      cases hj : urljoin base (pyStrip hd) with
      | error e => rw [hj] at h; cases h
      | ok absolute =>
        rw [hj] at h
        simp only [okBind] at h
        cases hsd : is_same_domain base absolute with
        | error e => rw [hsd] at h; cases h
        | ok sd =>
          rw [hsd] at h
          simp only [okBind] at h
          by_cases hc : sd = true ∧ keywordHit (pyStrip hd) = true
          · rw [if_pos hc] at h
            cases hn : normalize_url absolute with
            | error e => rw [hn] at h; cases h
            | ok n =>
              rw [hn] at h
              simp only [okBind] at h
              cases hrest : gatherLinks base tl with
              | error e => rw [hrest] at h; cases h
              | ok rest =>
                rw [hrest] at h
                simp only [okBind] at h
                cases h
                rw [List.mem_cons] at hl
                rcases hl with hl | hl
                · exact ⟨absolute, by rw [hn, hl]⟩
                · exact ih rest hrest l hl
          · rw [if_neg hc] at h
            exact ih links h l hl

theorem dedupKeep_subset (seen : List Str) (l : List Str) :
    ∀ x ∈ dedupKeep seen l, x ∈ l := by
  induction l generalizing seen with
  | nil => intro x hx; cases hx
  | cons a t ih =>
    intro x hx
    rw [dedupKeep] at hx
    by_cases ha : a ∈ seen
    · rw [if_pos ha] at hx
      exact List.mem_cons_of_mem a (ih seen x hx)
    · rw [if_neg ha] at hx
      rw [List.mem_cons] at hx
      rcases hx with hx | hx
      · rw [hx]; exact List.mem_cons_self a t
      · exact List.mem_cons_of_mem a (ih (a :: seen) x hx)

theorem pyDictFromKeys_subset (l : List Str) : ∀ x ∈ pyDictFromKeys l, x ∈ l :=
  dedupKeep_subset [] l

/-- Every member of `find_internal_links`' output is a `normalize_url` image. -/
theorem find_internal_links_mem_norm (base : Str) (hrefs : List Str) (links : List Str)
    (h : find_internal_links base hrefs = .ok links) :
    ∀ l ∈ links, ∃ a, normalize_url a = .ok l := by
  unfold find_internal_links at h
  cases hg : gatherLinks base hrefs with
  | error e => rw [hg] at h; cases h
  | ok raw =>
    rw [hg] at h
    simp only [okBind] at h
    cases h
    intro l hl
    exact gatherLinks_mem_norm base hrefs raw hg l (pyDictFromKeys_subset raw l hl)

/-! ## Concrete environments used in counterexamples and witnesses -/

/-- An environment in which every fetch raises and every page is
link-free; only `max_pages` and `delay` vary. -/
def allFailEnv (mp : Int) (d : ℚ) : ScanEnv where
  web := fun _ => none
  anchors := fun _ => []
  extract_text := fun _ => []
  match_certifications := fun _ => ∅
  match_remote := fun _ => ∅
  max_pages := mp
  delay := d

/-- A crawl in `allFailEnv` with a positive page budget: the seed is
dequeued, marked seen, its fetch fails, the crawl ends empty-handed. -/
theorem allFailEnv_run (mp : Int) (d : ℚ) (u n : Str)
    (hn : normalize_url u = .ok n) (hmp : 0 < mp) :
    scanSiteFull (allFailEnv mp d) u = .ok ⟨[], [n], ∅, ∅, 0, 0, [.fetchFail n]⟩ := by
  unfold scanSiteFull
  rw [hn]
  simp only [okBind]
  rw [scanLoop_fail (allFailEnv mp d) _ n [] rfl (by exact_mod_cast hmp)
    (by simp) rfl]
  rw [scanLoop_nil _ _ rfl]
  rfl

/-! ## Claim C1: page budget -/

/-- C1 (corrected, counterexample): with `max_pages = -1` the crawl loop
never runs, so `scan_site` returns a `ScanResult` with
`pages_scanned = 0`, which exceeds the configured `max_pages`: the claim
`pages_scanned ≤ max_pages` fails for negative budgets. -/
theorem claim_C1_counterexample :
    scan_site (allFailEnv (-1) 0) "http://example.com".data =
      .ok ⟨"http://example.com".data, ∅, ∅, 0, 0⟩ ∧
    ¬((0 : Int) ≤ (allFailEnv (-1) 0).max_pages) := by
  constructor
  · unfold scan_site scanSiteFull
    rw [show normalize_url "http://example.com".data =
      .ok "http://example.com".data from rfl]
    rw [okBind, scanLoop_stop _ _ (by decide), okBind]
  · decide

/-- C1 (amended): whenever the configured `max_pages` is nonnegative,
the `ScanResult` of `scan_site` satisfies `pages_scanned ≤ max_pages`;
moreover the loop exits (fetching nothing further) as soon as
`pages_scanned` is no longer below `max_pages`. -/
theorem claim_C1 :
    (∀ (env : ScanEnv) (url : Str) (st : CrawlState), 0 ≤ env.max_pages →
      scanSiteFull env url = .ok st → (st.pages_scanned : Int) ≤ env.max_pages) ∧
    (∀ (env : ScanEnv) (st : CrawlState),
      ¬((st.pages_scanned : Int) < env.max_pages) → scanLoop env st = .ok st) := by
  constructor
  · intro env url st h0 hrun
    obtain ⟨n, _, hloop⟩ := scanSiteFull_elim hrun
    refine scanLoop_preserve env
      (fun s => (s.pages_scanned : Int) ≤ env.max_pages)
      ?_ ?_ ?_ ?_ _ st hloop (by simpa using h0)
    · intro s current rest _ _ _ hP
      simpa using hP
    · intro s current rest _ _ _ _ hP
      simpa using hP
    · intro s current rest html _ hb _ _ _
      simp only [pageState]
      push_cast
      omega
    · intro s current rest html links _ hb _ _ _ _
      simp only [pageState]
      push_cast
      omega
  · exact fun env st h => scanLoop_stop env st h

/-- C1 (witness): both parts of the amended claim applied at concrete
inputs (a crawl with all fetches failing, and a state whose budget is
already exhausted). -/
theorem claim_C1_witness :
    ((0 : Nat) : Int) ≤ (allFailEnv 6 0).max_pages ∧
    scanLoop (allFailEnv 6 0) ⟨["x".data], [], ∅, ∅, 7, 0, []⟩ =
      .ok ⟨["x".data], [], ∅, ∅, 7, 0, []⟩ := by
  refine ⟨?_, claim_C1.2 (allFailEnv 6 0) ⟨["x".data], [], ∅, ∅, 7, 0, []⟩ (by decide)⟩
  have hrun := allFailEnv_run 6 0 "http://example.com".data _ rfl (by decide)
  exact claim_C1.1 (allFailEnv 6 0) _ _ (by decide) hrun

/-! ## Claim C2: no URL fetched twice, visited set only grows -/

/-- C2 (confirmed): in every completed crawl, the list of URLs on which
a fetch was attempted has no duplicates; every fetched URL was recorded
in the visited set; every fetched URL is a `normalize_url` image; and
the visited set only grows along the loop. -/
theorem claim_C2 :
    (∀ (env : ScanEnv) (url : Str) (st : CrawlState),
      scanSiteFull env url = .ok st →
      (fetchedUrls st.trace).Nodup ∧
      (∀ u ∈ fetchedUrls st.trace, u ∈ st.seen) ∧
      (∀ u ∈ fetchedUrls st.trace, ∃ a, normalize_url a = .ok u)) ∧
    (∀ (env : ScanEnv) (st₀ st₁ : CrawlState),
      scanLoop env st₀ = .ok st₁ → st₀.seen ⊆ st₁.seen) := by
  constructor
  · intro env url st hrun
    obtain ⟨n, hn, hloop⟩ := scanSiteFull_elim hrun
    have key := scanLoop_preserve env
      (fun s => (fetchedUrls s.trace).Nodup ∧
        (∀ u ∈ fetchedUrls s.trace, u ∈ s.seen) ∧
        (∀ u ∈ fetchedUrls s.trace, ∃ a, normalize_url a = .ok u) ∧
        (∀ u ∈ s.queue, ∃ a, normalize_url a = .ok u))
      ?_ ?_ ?_ ?_ _ st hloop ?_
    · exact ⟨key.1, key.2.1, key.2.2.1⟩
    · intro s current rest hq _ _ hP
      refine ⟨hP.1, hP.2.1, hP.2.2.1, ?_⟩
      intro u hu
      exact hP.2.2.2 u (by rw [hq]; exact List.mem_cons_of_mem _ hu)
    · intro s current rest hq _ hs _ hP
      obtain ⟨h1, h2, h3, h4⟩ := hP
      have hcur : ∃ a, normalize_url a = .ok current :=
        h4 current (by rw [hq]; exact List.mem_cons_self _ _)
      refine ⟨?_, ?_, ?_, ?_⟩
      · simp only [fetchedUrls_append]
        rw [List.nodup_append]
        refine ⟨h1, by simp [fetchedUrls], ?_⟩
        intro u hu
        simp only [fetchedUrls, List.mem_singleton]
        intro heq
        rw [heq] at hu
        exact hs (h2 current hu)
      · intro u hu
        simp only [fetchedUrls_append] at hu
        rcases List.mem_append.mp hu with hu | hu
        · exact List.mem_cons_of_mem _ (h2 u hu)
        · simp only [fetchedUrls, List.mem_singleton] at hu
          rw [hu]
          exact List.mem_cons_self _ _
      · intro u hu
        simp only [fetchedUrls_append] at hu
        rcases List.mem_append.mp hu with hu | hu
        · exact h3 u hu
        · simp only [fetchedUrls, List.mem_singleton] at hu
          rw [hu]
          exact hcur
      · intro u hu
        exact h4 u (by rw [hq]; exact List.mem_cons_of_mem _ hu)
    · intro s current rest html hq _ hs _ hP
      obtain ⟨h1, h2, h3, h4⟩ := hP
      have hcur : ∃ a, normalize_url a = .ok current :=
        h4 current (by rw [hq]; exact List.mem_cons_self _ _)
      have htr : fetchedUrls ((s.trace ++ [Event.fetchOk current]) ++ sleepSuffix env) =
          fetchedUrls s.trace ++ [current] := by
        rw [fetchedUrls_append, fetchedUrls_append]
        have : fetchedUrls (sleepSuffix env) = [] := by
          unfold sleepSuffix
          split <;> rfl
        rw [this]
        simp [fetchedUrls]
      refine ⟨?_, ?_, ?_, ?_⟩
      · simp only [pageState, htr]
        rw [List.nodup_append]
        refine ⟨h1, by simp, ?_⟩
        intro u hu
        simp only [List.mem_singleton]
        intro heq
        rw [heq] at hu
        exact hs (h2 current hu)
      · intro u hu
        simp only [pageState, htr] at hu ⊢
        rcases List.mem_append.mp hu with hu | hu
        · exact List.mem_cons_of_mem _ (h2 u hu)
        · simp only [List.mem_singleton] at hu
          rw [hu]
          exact List.mem_cons_self _ _
      · intro u hu
        simp only [pageState, htr] at hu
        rcases List.mem_append.mp hu with hu | hu
        · exact h3 u hu
        · simp only [List.mem_singleton] at hu
          rw [hu]
          exact hcur
      · intro u hu
        simp only [pageState] at hu
        exact h4 u (by rw [hq]; exact List.mem_cons_of_mem _ hu)
    · intro s current rest html links hq _ hs _ hok hP
      obtain ⟨h1, h2, h3, h4⟩ := hP
      have hcur : ∃ a, normalize_url a = .ok current :=
        h4 current (by rw [hq]; exact List.mem_cons_self _ _)
      have htr : fetchedUrls ((s.trace ++ [Event.fetchOk current]) ++ sleepSuffix env) =
          fetchedUrls s.trace ++ [current] := by
        rw [fetchedUrls_append, fetchedUrls_append]
        have : fetchedUrls (sleepSuffix env) = [] := by
          unfold sleepSuffix
          split <;> rfl
        rw [this]
        simp [fetchedUrls]
      refine ⟨?_, ?_, ?_, ?_⟩
      · simp only [pageState, htr]
        rw [List.nodup_append]
        refine ⟨h1, by simp, ?_⟩
        intro u hu
        simp only [List.mem_singleton]
        intro heq
        rw [heq] at hu
        exact hs (h2 current hu)
      · intro u hu
        simp only [pageState, htr] at hu ⊢
        rcases List.mem_append.mp hu with hu | hu
        · exact List.mem_cons_of_mem _ (h2 u hu)
        · simp only [List.mem_singleton] at hu
          rw [hu]
          exact List.mem_cons_self _ _
      · intro u hu
        simp only [pageState, htr] at hu
        rcases List.mem_append.mp hu with hu | hu
        · exact h3 u hu
        · simp only [List.mem_singleton] at hu
          rw [hu]
          exact hcur
      · intro u hu
        simp only [pageState] at hu
        rcases List.mem_append.mp hu with hu | hu
        · exact h4 u (by rw [hq]; exact List.mem_cons_of_mem _ hu)
        · exact find_internal_links_mem_norm current (env.anchors html) links hok u
            (List.mem_of_mem_filter hu)
    · refine ⟨by simp [fetchedUrls], by simp [fetchedUrls], by simp [fetchedUrls], ?_⟩
      intro u hu
      simp only [List.mem_singleton] at hu
      rw [hu]
      exact ⟨url, hn⟩
  · intro env st₀ st₁ hrun
    exact scanLoop_preserve env (fun s => st₀.seen ⊆ s.seen)
      (fun s c r _ _ _ hP => hP)
      (fun s c r _ _ _ _ hP => hP.trans (by simp))
      (fun s c r html _ _ _ _ hP => hP.trans (by simp [pageState]))
      (fun s c r html links _ _ _ _ _ hP => hP.trans (by simp [pageState]))
      st₀ st₁ hrun (fun u hu => hu)

/-- C2 (witness). -/
theorem claim_C2_witness :
    (fetchedUrls [Event.fetchFail "http://example.com".data]).Nodup ∧
    (∀ u ∈ fetchedUrls [Event.fetchFail "http://example.com".data],
      u ∈ ["http://example.com".data]) := by
  have hrun : scanSiteFull (allFailEnv 6 0) "http://example.com".data =
      .ok ⟨[], ["http://example.com".data], ∅, ∅, 0, 0,
        [.fetchFail "http://example.com".data]⟩ :=
    allFailEnv_run 6 0 _ _ rfl (by decide)
  have h := claim_C2.1 (allFailEnv 6 0) "http://example.com".data _ hrun
  exact ⟨h.1, h.2.1⟩

/-! ## Claim C5: scan_site never raises -/

/-- C5 (corrected, counterexample): `scan_site` *can* raise: on the seed
`"http://[::1"`, `normalize_url`'s `urlparse` raises
`ValueError("Invalid IPv6 URL")` before any fetch, and nothing catches
it (the loop only catches `requests.RequestException` around `fetch`). -/
theorem claim_C5_counterexample :
    normalize_url "http://[::1".data = .error () ∧
    scan_site (allFailEnv 6 0) "http://[::1".data = .error () ∧
    (0 : Int) < (allFailEnv 6 0).max_pages := by
  exact ⟨rfl, rfl, by decide⟩

/-- C5 (amended): for every seed URL whose normalization succeeds (i.e.
URL parsing does not raise), a failing seed fetch is absorbed: whatever
`max_pages` and `delay` are, `scan_site` returns a fully formed
`ScanResult` with the original url, empty label sets,
`pages_scanned = 0` and `pages_with_hits = 0`. -/
theorem claim_C5 (env : ScanEnv) (url n : Str)
    (hn : normalize_url url = .ok n) (hw : env.web n = none) :
    scan_site env url = .ok ⟨url, ∅, ∅, 0, 0⟩ := by
  unfold scan_site scanSiteFull
  rw [hn, okBind]
  by_cases hmp : (0 : Int) < env.max_pages
  · rw [scanLoop_fail env _ n [] rfl (by exact_mod_cast hmp) (by simp) hw,
      scanLoop_nil _ _ rfl, okBind]
  · rw [scanLoop_stop env _ (by simpa using hmp), okBind]

/-- C5 (witness). -/
theorem claim_C5_witness :
    scan_site (allFailEnv 6 (1/2)) "http://example.com".data =
      .ok ⟨"http://example.com".data, ∅, ∅, 0, 0⟩ :=
  claim_C5 (allFailEnv 6 (1/2)) "http://example.com".data
    "http://example.com".data rfl rfl

/-! ## Claim C6: the inter-request delay -/

/-- C6 (corrected, counterexample): with `delay = 1/2 ≠ 0`, a crawl that
dequeues and processes exactly one page (whose fetch fails) performs no
sleep at all: the `continue` in the `except` branch skips
`time.sleep(delay)`, so the delay is *not* applied unconditionally after
each processed page. -/
theorem claim_C6_counterexample :
    (allFailEnv 6 (1/2)).delay ≠ 0 ∧
    scanSiteFull (allFailEnv 6 (1/2)) "http://example.com".data =
      .ok ⟨[], ["http://example.com".data], ∅, ∅, 0, 0,
        [.fetchFail "http://example.com".data]⟩ ∧
    Event.sleep ∉ [Event.fetchFail "http://example.com".data] := by
  refine ⟨by norm_num [allFailEnv], ?_, by decide⟩
  exact allFailEnv_run 6 (1/2) _ _ rfl (by decide)

/-- C6 (amended): the delay is applied exactly once after each
*successfully fetched* page (when `delay ≠ 0`), and never after a failed
fetch or a skipped duplicate: in every completed crawl the number of
sleep events equals `pages_scanned` when `delay ≠ 0`, and `0` when
`delay = 0`. -/
theorem claim_C6 (env : ScanEnv) (url : Str) (st : CrawlState)
    (hrun : scanSiteFull env url = .ok st) :
    st.trace.count Event.sleep =
      (if env.delay ≠ 0 then st.pages_scanned else 0) := by
  obtain ⟨n, _, hloop⟩ := scanSiteFull_elim hrun
  refine scanLoop_preserve env
    (fun s => s.trace.count Event.sleep =
      (if env.delay ≠ 0 then s.pages_scanned else 0))
    ?_ ?_ ?_ ?_ _ st hloop (by simp)
  · intro s current rest _ _ _ hP
    simpa using hP
  · intro s current rest _ _ _ _ hP
    simpa [List.count_append, List.count_singleton] using hP
  · intro s current rest html _ _ _ _ hP
    simp only [pageState, sleepSuffix, List.count_append]
    by_cases hd : env.delay ≠ 0
    · rw [if_pos hd] at hP ⊢
      simp [hP, hd, List.count_singleton, List.count_cons]
    · rw [if_neg hd] at hP ⊢
      simp [hP, not_not.mp hd, List.count_cons]
  · intro s current rest html links _ _ _ _ _ hP
    simp only [pageState, sleepSuffix, List.count_append]
    by_cases hd : env.delay ≠ 0
    · rw [if_pos hd] at hP ⊢
      simp [hP, hd, List.count_singleton, List.count_cons]
    · rw [if_neg hd] at hP ⊢
      simp [hP, not_not.mp hd, List.count_cons]

/-- C6 (witness). -/
theorem claim_C6_witness :
    ([Event.fetchFail "http://example.com".data].count Event.sleep) =
      (if (allFailEnv 6 (1/2)).delay ≠ 0 then 0 else 0) := by
  have hrun : scanSiteFull (allFailEnv 6 (1/2)) "http://example.com".data =
      .ok ⟨[], ["http://example.com".data], ∅, ∅, 0, 0,
        [.fetchFail "http://example.com".data]⟩ :=
    allFailEnv_run 6 (1/2) _ _ rfl (by decide)
  exact claim_C6 (allFailEnv 6 (1/2)) "http://example.com".data _ hrun

/-! ## Claim C10: nonpositive max_pages -/

/-- C10 (corrected, counterexample): even with `max_pages ≤ 0`,
`scan_site` does not return a `ScanResult` for every seed: the seed
`"http://["` makes `normalize_url` raise before the loop is entered. -/
theorem claim_C10_counterexample :
    (allFailEnv 0 1).max_pages ≤ 0 ∧
    scan_site (allFailEnv 0 1) "http://[".data = .error () := by
  exact ⟨by decide, rfl⟩

/-- C10 (amended): for every seed URL whose normalization succeeds and
every `max_pages ≤ 0`, `scan_site` performs no fetch at all (empty
trace) and returns `ScanResult(url, ∅, ∅, 0, 0)` with the caller's
original, un-normalized url. -/
theorem claim_C10 (env : ScanEnv) (url n : Str)
    (hmp : env.max_pages ≤ 0) (hn : normalize_url url = .ok n) :
    scan_site env url = .ok ⟨url, ∅, ∅, 0, 0⟩ ∧
    scanSiteFull env url = .ok ⟨[n], [], ∅, ∅, 0, 0, []⟩ := by
  have hfull : scanSiteFull env url = .ok ⟨[n], [], ∅, ∅, 0, 0, []⟩ := by
    unfold scanSiteFull
    rw [hn, okBind]
    exact scanLoop_stop env _ (by simp; omega)
  refine ⟨?_, hfull⟩
  unfold scan_site
  rw [hfull, okBind]

/-- C10 (witness): note the seed normalizes to a *different* string
(trailing slash stripped), yet the returned `ScanResult.url` is the
original seed verbatim. -/
theorem claim_C10_witness :
    scan_site (allFailEnv 0 1) "http://example.com/".data =
      .ok ⟨"http://example.com/".data, ∅, ∅, 0, 0⟩ ∧
    scanSiteFull (allFailEnv 0 1) "http://example.com/".data =
      .ok ⟨["http://example.com".data], [], ∅, ∅, 0, 0, []⟩ :=
  claim_C10 (allFailEnv 0 1) "http://example.com/".data
    "http://example.com".data (by decide) rfl

/-! ## Claim C7: the fetch contract -/

/-- C7 (corrected, counterexample): `raise_for_status` only raises for
status codes in `[400, 600)`, so a non-2xx response such as `304 Not
Modified` still returns its body: "raises iff non-2xx" is false. -/
theorem claim_C7_counterexample :
    fetch (.resp ⟨304, "cached".data⟩) = .ok "cached".data ∧
    ¬(200 ≤ 304 ∧ 304 < 300) := by
  exact ⟨rfl, by decide⟩

/-- C7 (amended): `fetch` returns the body on every 2xx status, and
raises a `FetchError` exactly when the request itself raised (network
failure, timeout) or the received status lies in `[400, 600)`. -/
theorem claim_C7 (o : GetOutcome) :
    (∀ r, o = .resp r → 200 ≤ r.status_code → r.status_code < 300 →
      fetch o = .ok r.text) ∧
    (fetch o = .error () ↔
      o = .exn ∨ ∃ r, o = .resp r ∧ 400 ≤ r.status_code ∧ r.status_code < 600) := by
  constructor
  · intro r hr h2 h3
    subst hr
    have hf : raise_for_status r = false := by
      simp only [raise_for_status, decide_eq_false_iff_not]
      omega
    simp [fetch, hf]
  · cases o with
    | exn => simp [fetch]
    | resp r =>
      by_cases hs : 400 ≤ r.status_code ∧ r.status_code < 600
      · have ht : raise_for_status r = true := by
          simpa only [raise_for_status, decide_eq_true_eq] using hs
        rw [show fetch (.resp r) = .error () from by simp [fetch, ht]]
        constructor
        · intro _
          exact Or.inr ⟨r, rfl, hs⟩
        · intro _
          rfl
      · have hf : raise_for_status r = false := by
          simpa only [raise_for_status, decide_eq_false_iff_not] using hs
        rw [show fetch (.resp r) = .ok r.text from by simp [fetch, hf]]
        constructor
        · intro h
          exact Except.noConfusion h
        · rintro (h | ⟨r2, hr2, h4, h6⟩)
          · exact GetOutcome.noConfusion h
          · cases hr2
            exact absurd ⟨h4, h6⟩ hs

/-- C7 (witness). -/
theorem claim_C7_witness :
    fetch (.resp ⟨204, "nc".data⟩) = .ok "nc".data :=
  (claim_C7 (.resp ⟨204, "nc".data⟩)).1 ⟨204, "nc".data⟩ rfl
    (by decide) (by decide)

/-! ## Claim C8: read_urls -/

/-- C8 (confirmed): `read_urls` returns exactly the stripped contents of
the lines that are non-blank and do not start with `'#'`, in file
order.  In particular a line whose `'#'` is preceded by leading
whitespace is *kept* (the `startswith` test runs on the raw line). -/
theorem claim_C8 (lines : List Str) :
    read_urls lines =
      (lines.filter
        (fun l => !(pyStrip l).isEmpty && !(beginsWith l ['#']))).map pyStrip := by
  induction lines with
  | nil => rfl
  | cons line rest ih =>
    rw [read_urls]
    by_cases hc : pyStrip line ≠ [] ∧ ¬(beginsWith line ['#'] = true)
    · rw [if_pos hc]
      have hb : (!(pyStrip line).isEmpty && !(beginsWith line ['#'])) = true := by
        simp only [Bool.and_eq_true, Bool.not_eq_true']
        constructor
        · simpa [List.isEmpty_iff] using hc.1
        · simpa using hc.2
      simp [List.filter_cons, hb, ih]
    · rw [if_neg hc]
      have hb : (!(pyStrip line).isEmpty && !(beginsWith line ['#'])) = false := by
        rw [Decidable.not_and_iff_or_not] at hc
        rcases hc with hc | hc
        · rw [not_not] at hc
          simp [hc]
        · rw [not_not] at hc
          simp [hc]
      simp [List.filter_cons, hb, ih]


/-! ## Character-level lemmas -/

theorem charToNat_ofNat (n : Nat) (h : n < 55296) : (Char.ofNat n).toNat = n := by
  rw [Char.ofNat, dif_pos (Or.inl h)]
  simp [Char.ofNatAux, Char.toNat, UInt32.toNat, UInt32.ofNat', BitVec.toNat_ofNatLt]

theorem toLower_val_of_upper (c : Char) (hu : 65 ≤ c.toNat ∧ c.toNat ≤ 90) :
    c.toLower.toNat = c.toNat + 32 := by
  unfold Char.toLower
  rw [if_pos hu]
  exact charToNat_ofNat _ (by omega)

theorem toLower_of_not_upper (c : Char) (hu : ¬(65 ≤ c.toNat ∧ c.toNat ≤ 90)) :
    c.toLower = c := by
  unfold Char.toLower
  rw [if_neg hu]

theorem toLower_toLower (c : Char) : c.toLower.toLower = c.toLower := by
  by_cases hu : 65 ≤ c.toNat ∧ c.toNat ≤ 90
  · have h32 := toLower_val_of_upper c hu
    exact toLower_of_not_upper _ (by omega)
  · rw [toLower_of_not_upper c hu, toLower_of_not_upper c hu]

theorem pyLower_pyLower (s : Str) : pyLower (pyLower s) = pyLower s := by
  unfold pyLower
  rw [List.map_map]
  exact List.map_congr_left (fun c _ => toLower_toLower c)

theorem isUpper_iff (c : Char) : c.isUpper = true ↔ 65 ≤ c.toNat ∧ c.toNat ≤ 90 := by
  simp only [Char.isUpper, Bool.and_eq_true, decide_eq_true_eq, ge_iff_le]
  exact Iff.rfl

theorem isLower_iff (c : Char) : c.isLower = true ↔ 97 ≤ c.toNat ∧ c.toNat ≤ 122 := by
  simp only [Char.isLower, Bool.and_eq_true, decide_eq_true_eq, ge_iff_le]
  exact Iff.rfl

theorem isAlpha_iff (c : Char) : c.isAlpha = true ↔
    (65 ≤ c.toNat ∧ c.toNat ≤ 90) ∨ (97 ≤ c.toNat ∧ c.toNat ≤ 122) := by
  simp only [Char.isAlpha, Bool.or_eq_true, isUpper_iff, isLower_iff]

theorem isDigit_iff (c : Char) : c.isDigit = true ↔ 48 ≤ c.toNat ∧ c.toNat ≤ 57 := by
  simp only [Char.isDigit, Bool.and_eq_true, decide_eq_true_eq, ge_iff_le]
  exact Iff.rfl

theorem toNat_eq_of_eq {c d : Char} (h : c = d) : c.toNat = d.toNat := by rw [h]

theorem toLower_isAlpha (c : Char) (h : c.isAlpha = true) :
    c.toLower.isAlpha = true := by
  by_cases hu : 65 ≤ c.toNat ∧ c.toNat ≤ 90
  · have h32 := toLower_val_of_upper c hu
    rw [isAlpha_iff]
    omega
  · rw [toLower_of_not_upper c hu]
    exact h

theorem toLower_scheme_char (c : Char) (h : scheme_char c = true) :
    scheme_char c.toLower = true := by
  by_cases hu : 65 ≤ c.toNat ∧ c.toNat ≤ 90
  · have h32 := toLower_val_of_upper c hu
    unfold scheme_char
    have : c.toLower.isAlpha = true := by
      rw [isAlpha_iff]
      omega
    simp [this]
  · rw [toLower_of_not_upper c hu]
    exact h

theorem scheme_char_toNat (c : Char) (h : scheme_char c = true) :
    (65 ≤ c.toNat ∧ c.toNat ≤ 90) ∨ (97 ≤ c.toNat ∧ c.toNat ≤ 122) ∨
    (48 ≤ c.toNat ∧ c.toNat ≤ 57) ∨ c.toNat = 43 ∨ c.toNat = 45 ∨ c.toNat = 46 := by
  unfold scheme_char at h
  simp only [Bool.or_eq_true, isAlpha_iff, isDigit_iff, decide_eq_true_eq] at h
  rcases h with ((((h | h) | h) | h) | h) | h
  · exact Or.inl h
  · exact Or.inr (Or.inl h)
  · exact Or.inr (Or.inr (Or.inl h))
  · exact Or.inr (Or.inr (Or.inr (Or.inl (toNat_eq_of_eq h))))
  · exact Or.inr (Or.inr (Or.inr (Or.inr (Or.inl (toNat_eq_of_eq h)))))
  · exact Or.inr (Or.inr (Or.inr (Or.inr (Or.inr (toNat_eq_of_eq h)))))

theorem ne_of_toNat_ne {c d : Char} (h : c.toNat ≠ d.toNat) : c ≠ d :=
  fun he => h (toNat_eq_of_eq he)

theorem scheme_char_ne (c : Char) (h : scheme_char c = true) :
    c ≠ ':' ∧ c ≠ '/' ∧ c ≠ '#' ∧ c ≠ '?' ∧ c ≠ '\t' ∧ c ≠ '\r' ∧ c ≠ '\n' := by
  have := scheme_char_toNat c h
  refine ⟨ne_of_toNat_ne ?_, ne_of_toNat_ne ?_, ne_of_toNat_ne ?_, ne_of_toNat_ne ?_,
    ne_of_toNat_ne ?_, ne_of_toNat_ne ?_, ne_of_toNat_ne ?_⟩
  · show c.toNat ≠ 58
    omega
  · show c.toNat ≠ 47
    omega
  · show c.toNat ≠ 35
    omega
  · show c.toNat ≠ 63
    omega
  · show c.toNat ≠ 9
    omega
  · show c.toNat ≠ 13
    omega
  · show c.toNat ≠ 10
    omega

/-! ## String-splitting lemmas -/

theorem splitFirst_eq_none {c : Char} {s : Str} (h : c ∉ s) : splitFirst c s = none := by
  induction s with
  | nil => rfl
  | cons a t ih =>
    rw [splitFirst]
    rw [if_neg (fun he => h (by rw [← he]; exact List.mem_cons_self a t))]
    rw [ih (fun ht => h (List.mem_cons_of_mem a ht))]
    rfl

theorem splitFirst_before {c : Char} {x y : Str} (h : c ∉ x) :
    splitFirst c (x ++ c :: y) = some (x, y) := by
  induction x with
  | nil =>
    rw [List.nil_append, splitFirst, if_pos rfl]
  | cons a t ih =>
    rw [List.cons_append, splitFirst]
    rw [if_neg (fun he => h (by rw [← he]; exact List.mem_cons_self a t))]
    rw [ih (fun ht => h (List.mem_cons_of_mem a ht))]
    rfl

theorem splitFirst_shape {c : Char} {s x y : Str} (h : splitFirst c s = some (x, y)) :
    s = x ++ c :: y ∧ c ∉ x := by
  induction s generalizing x with
  | nil => cases h
  | cons a t ih =>
    rw [splitFirst] at h
    by_cases ha : a = c
    · rw [if_pos ha] at h
      cases h
      exact ⟨by rw [ha]; rfl, List.not_mem_nil c⟩
    · rw [if_neg ha] at h
      cases hs : splitFirst c t with
      | none => rw [hs] at h; cases h
      | some p =>
        rw [hs] at h
        cases h
        obtain ⟨h1, h2⟩ := ih hs
        constructor
        · rw [List.cons_append, ← h1]
        · intro hm
          rw [List.mem_cons] at hm
          rcases hm with hm | hm
          · exact ha hm.symm
          · exact h2 hm

theorem rstripSlash_append (x y : Str) :
    rstripSlash (x ++ y) =
      if rstripSlash y = [] then rstripSlash x else x ++ rstripSlash y := by
  unfold rstripSlash
  rw [List.reverse_append, List.dropWhile_append]
  by_cases hy : (y.reverse.dropWhile (fun c => c = '/')).isEmpty = true
  · rw [if_pos hy]
    rw [List.isEmpty_iff] at hy
    rw [if_pos (by rw [hy]; rfl)]
  · rw [if_neg hy]
    rw [List.isEmpty_iff] at hy
    rw [if_neg (fun hh => hy (by
      have := congrArg List.reverse hh
      rwa [List.reverse_reverse, List.reverse_nil] at this))]
    rw [List.reverse_append, List.reverse_reverse]

theorem rstripSlash_eq_nil_iff (s : Str) : rstripSlash s = [] ↔ ∀ c ∈ s, c = '/' := by
  unfold rstripSlash
  constructor
  · intro h c hc
    have := congrArg List.reverse h
    rw [List.reverse_reverse, List.reverse_nil] at this
    have hall := List.dropWhile_eq_nil_iff.mp this
    exact of_decide_eq_true (hall c (List.mem_reverse.mpr hc))
  · intro h
    have : s.reverse.dropWhile (fun c => c = '/') = [] := by
      rw [List.dropWhile_eq_nil_iff]
      intro c hc
      exact decide_eq_true (h c (List.mem_reverse.mp hc))
    rw [this, List.reverse_nil]

theorem rstripSlash_cons_ne (a : Char) (s : Str) (ha : a ≠ '/') :
    rstripSlash (a :: s) = a :: rstripSlash s := by
  have := rstripSlash_append [a] s
  rw [List.singleton_append] at this
  rw [this]
  by_cases hs : rstripSlash s = []
  · rw [if_pos hs, hs]
    unfold rstripSlash
    simp [List.dropWhile, ha]
  · rw [if_neg hs]
    rfl

theorem rstripSlash_concat_ne (x : Str) (a : Char) (ha : a ≠ '/') :
    rstripSlash (x ++ [a]) = x ++ [a] := by
  rw [rstripSlash_append]
  have h1 : rstripSlash [a] = [a] := by
    unfold rstripSlash
    simp [List.dropWhile, ha]
  rw [h1]
  rw [if_neg (by simp)]

theorem rstripSlash_decomp (s : Str) :
    ∃ k, s = rstripSlash s ++ List.replicate k '/' := by
  refine ⟨(s.reverse.takeWhile (fun d => decide (d = '/'))).length, ?_⟩
  have hs : s = (s.reverse.dropWhile (fun d => decide (d = '/'))).reverse ++
      (s.reverse.takeWhile (fun d => decide (d = '/'))).reverse := by
    conv_lhs => rw [← List.reverse_reverse s, ← List.takeWhile_append_dropWhile
      (p := fun d => decide (d = '/')) (l := s.reverse)]
    rw [List.reverse_append]
  conv_lhs => rw [hs]
  congr 1
  have hlen : (s.reverse.takeWhile (fun d => decide (d = '/'))).reverse.length =
      (s.reverse.takeWhile (fun d => decide (d = '/'))).length := by
    rw [List.length_reverse]
  rw [← hlen]
  refine List.eq_replicate_length.mpr ?_
  intro b hb
  rw [List.mem_reverse] at hb
  have hpb := List.mem_takeWhile_imp hb
  exact of_decide_eq_true hpb

theorem rstripSlash_ne_nil (s : Str) (c : Char) (hc : c ∈ s) (hne : c ≠ '/') :
    rstripSlash s ≠ [] := by
  intro h
  exact hne (rstripSlash_eq_nil_iff s |>.mp h c hc)

theorem cleanUrl_eq_self {s : Str} (h : ∀ c ∈ s, ¬(c = '\t' ∨ c = '\r' ∨ c = '\n')) :
    cleanUrl s = s := by
  unfold cleanUrl
  rw [List.filter_eq_self]
  intro a ha
  simp only [Bool.not_eq_eq_eq_not, Bool.not_true, Bool.or_eq_false_iff,
    decide_eq_false_iff_not]
  have hgood := h a ha
  exact ⟨⟨fun he => hgood (Or.inl he), fun he => hgood (Or.inr (Or.inl he))⟩,
    fun he => hgood (Or.inr (Or.inr he))⟩

/-! ## Well-formedness of parse results and auxiliary split lemmas -/

/-- A character the `urlsplit` preprocessing does not remove. -/
def goodChar (c : Char) : Prop := ¬(c = '\t' ∨ c = '\r' ∨ c = '\n')

/-- A string that can stand as the `scheme` component of a parse result
obtained with an empty (or well-formed) default scheme: empty, or a
lowercase-stable valid scheme. -/
def SchemeOk (s : Str) : Prop :=
  (s = [] ∨ ((∃ c0 t, s = c0 :: t ∧ c0.isAlpha = true) ∧
    ∀ c ∈ s, scheme_char c = true)) ∧ pyLower s = s

theorem schemeOk_nil : SchemeOk [] := ⟨Or.inl rfl, rfl⟩

theorem schemeOk_good {s : Str} (h : SchemeOk s) : ∀ c ∈ s, goodChar c := by
  intro c hc
  rcases h.1 with h1 | ⟨_, h2⟩
  · rw [h1] at hc
    cases hc
  · obtain ⟨_, _, _, _, hne1, hne2, hne3⟩ := scheme_char_ne c (h2 c hc)
    intro hbad
    rcases hbad with hb | hb | hb
    · exact hne1 hb
    · exact hne2 hb
    · exact hne3 hb

theorem schemeOk_clean {s : Str} (h : SchemeOk s) : cleanUrl s = s :=
  cleanUrl_eq_self (schemeOk_good h)

/-- Shape of `splitLast`. -/
theorem splitLast_shape {c : Char} {s x y : Str} (h : splitLast c s = some (x, y)) :
    s = x ++ c :: y ∧ c ∉ y := by
  unfold splitLast at h
  cases hs : splitFirst c s.reverse with
  | none => rw [hs] at h; cases h
  | some p =>
    obtain ⟨rb, ra⟩ := p
    rw [hs] at h
    cases h
    obtain ⟨h1, h2⟩ := splitFirst_shape hs
    constructor
    · have h3 := congrArg List.reverse h1
      rw [List.reverse_reverse, List.reverse_append, List.reverse_cons] at h3
      rw [h3, List.append_assoc, List.singleton_append]
    · intro hm
      exact h2 (List.mem_reverse.mp hm)

/-- Shape of `_splitparams`: either an exact split at a `';'`, or the
input returned whole. -/
theorem splitparams_shape (x : Str) :
    (x = (splitparams x).1 ++ ';' :: (splitparams x).2) ∨
    ((splitparams x).1 = x ∧ (splitparams x).2 = []) := by
  by_cases hs : '/' ∈ x
  · cases hl : splitLast '/' x with
    | none =>
      right
      constructor <;> simp [splitparams, if_pos hs, hl]
    | some p =>
      obtain ⟨a, b⟩ := p
      obtain ⟨hx, _⟩ := splitLast_shape hl
      cases hf : splitFirst ';' b with
      | none =>
        right
        constructor <;> simp [splitparams, if_pos hs, hl, hf]
      | some p2 =>
        obtain ⟨b1, b2⟩ := p2
        obtain ⟨hb, _⟩ := splitFirst_shape hf
        left
        simp only [splitparams, if_pos hs, hl, hf]
        rw [hx, hb]
        simp
  · cases hf : splitFirst ';' x with
    | none =>
      right
      constructor <;> simp [splitparams, if_neg hs, hf]
    | some p2 =>
      obtain ⟨b1, b2⟩ := p2
      obtain ⟨hb, _⟩ := splitFirst_shape hf
      left
      simp only [splitparams, if_neg hs, hf]
      exact hb

/-- Members survive `rstripSlash`. -/
theorem mem_rstripSlash {c : Char} {s : Str} (h : c ∈ rstripSlash s) : c ∈ s := by
  obtain ⟨k, hk⟩ := rstripSlash_decomp s
  rw [hk]
  exact List.mem_append_left _ h

/-- A nonempty `rstripSlash` result starts where the input starts. -/
theorem rstripSlash_head_eq {s : Str} (h : rstripSlash s ≠ []) :
    (rstripSlash s).head? = s.head? := by
  obtain ⟨k, hk⟩ := rstripSlash_decomp s
  conv_rhs => rw [hk]
  rw [List.head?_append_of_ne_nil _ h]

/-- `schemeSplit` on a string whose first character is not an ASCII
letter finds no scheme. -/
theorem schemeSplit_headNotAlpha {a : Char} {w : Str} (d : Str) (ha : a.isAlpha = false) :
    schemeSplit d (a :: w) = (d, a :: w) := by
  cases hs : splitFirst ':' (a :: w) with
  | none => simp [schemeSplit, hs]
  | some p =>
    obtain ⟨pre, post⟩ := p
    obtain ⟨h1, _⟩ := splitFirst_shape hs
    cases pre with
    | nil => simp [schemeSplit, hs]
    | cons c0 t0 =>
      have hc0 : c0 = a := by
        have h2 := congrArg List.head? h1
        simp at h2
        exact h2.symm
      simp only [schemeSplit, hs]
      rw [if_neg]
      intro hcon
      rw [hc0, ha] at hcon
      exact Bool.false_ne_true hcon.1

theorem schemeSplit_valid {s0 : Str} {c0 : Char} {t0 w : Str} (d : Str)
    (hs0 : s0 = c0 :: t0) (ha : c0.isAlpha = true)
    (hall : ∀ c ∈ s0, scheme_char c = true) :
    schemeSplit d (s0 ++ ':' :: w) = (pyLower s0, w) := by
  have hns : ':' ∉ s0 := fun hc => (scheme_char_ne ':' (hall ':' hc)).1 rfl
  subst hs0
  simp only [schemeSplit, splitFirst_before hns]
  rw [if_pos ⟨ha, by
    rw [List.all_eq_true]
    intro c hc
    exact hall c hc⟩]

/-! ## Inversion of `urlsplit` / `urlparse` -/

theorem cleanUrl_good (s : Str) : ∀ c ∈ cleanUrl s, goodChar c := by
  intro c hc
  unfold cleanUrl at hc
  have h2 := List.of_mem_filter hc
  simp only [Bool.not_eq_eq_eq_not, Bool.not_true, Bool.or_eq_false_iff,
    decide_eq_false_iff_not] at h2
  intro hbad
  rcases hbad with hb | hb | hb
  · exact h2.1.1 hb
  · exact h2.1.2 hb
  · exact h2.2 hb

theorem netlocSplit_fst_nodelim (rest : Str) :
    ∀ c ∈ (netlocSplit rest).1, netlocDelim c = false := by
  intro c hc
  unfold netlocSplit at hc
  split at hc
  · have := List.mem_takeWhile_imp hc
    rwa [Bool.not_eq_eq_eq_not, Bool.not_true] at this
  · cases hc

theorem splitFirst_none_not_mem {c : Char} {s : Str} (h : splitFirst c s = none) :
    c ∉ s := by
  induction s with
  | nil => exact List.not_mem_nil c
  | cons a t ih =>
    rw [splitFirst] at h
    by_cases ha : a = c
    · rw [if_pos ha] at h
      cases h
    · rw [if_neg ha] at h
      cases hs : splitFirst c t with
      | none =>
        intro hm
        rw [List.mem_cons] at hm
        rcases hm with hm | hm
        · exact ha hm.symm
        · exact ih hs hm
      | some p =>
        rw [hs] at h
        cases h

theorem netlocSplit_mem_fst (rest : Str) : ∀ c ∈ (netlocSplit rest).1, c ∈ rest := by
  intro c hc
  unfold netlocSplit at hc
  split at hc
  · right
    right
    exact (List.takeWhile_sublist _).subset hc
  · cases hc

theorem netlocSplit_mem_snd (rest : Str) : ∀ c ∈ (netlocSplit rest).2, c ∈ rest := by
  intro c hc
  unfold netlocSplit at hc
  split at hc
  · right
    right
    exact (List.dropWhile_sublist _).subset hc
  · exact hc

theorem cutFirst_shape (c : Char) (s : Str) :
    (s = (cutFirst c s).1 ++ c :: (cutFirst c s).2 ∨
      ((cutFirst c s).1 = s ∧ (cutFirst c s).2 = [])) ∧ c ∉ (cutFirst c s).1 := by
  unfold cutFirst
  cases hs : splitFirst c s with
  | none => exact ⟨Or.inr ⟨rfl, rfl⟩, fun hc => splitFirst_none_not_mem hs hc⟩
  | some p =>
    obtain ⟨h1, h2⟩ := splitFirst_shape (x := p.1) (y := p.2) (by rw [hs])
    exact ⟨Or.inl h1, h2⟩

theorem cutFirst_not_mem {c : Char} {s : Str} (h : c ∉ s) : cutFirst c s = (s, []) := by
  unfold cutFirst
  rw [splitFirst_eq_none h]

theorem cutFirst_before {c : Char} {x y : Str} (h : c ∉ x) :
    cutFirst c (x ++ c :: y) = (x, y) := by
  unfold cutFirst
  rw [splitFirst_before h]

theorem cutFirst_mem_fst (c : Char) (s : Str) : ∀ d ∈ (cutFirst c s).1, d ∈ s := by
  intro d hd
  rcases (cutFirst_shape c s).1 with h | h
  · rw [h]
    exact List.mem_append_left _ hd
  · rw [← h.1]
    exact hd

theorem cutFirst_mem_snd (c : Char) (s : Str) : ∀ d ∈ (cutFirst c s).2, d ∈ s := by
  intro d hd
  rcases (cutFirst_shape c s).1 with h | h
  · rw [h]
    exact List.mem_append_right _ (List.mem_cons_of_mem c hd)
  · rw [h.2] at hd
    cases hd

/-- The first component of `schemeSplit` is either the default or a
lowercased valid scheme; in the latter case the input splits at `':'`. -/
theorem schemeSplit_fst (d x : Str) :
    ((schemeSplit d x).1 = d ∧ (schemeSplit d x).2 = x) ∨
    (∃ pre c0 t0, pre = c0 :: t0 ∧ c0.isAlpha = true ∧
      (∀ c ∈ pre, scheme_char c = true) ∧
      (schemeSplit d x).1 = pyLower pre ∧ x = pre ++ ':' :: (schemeSplit d x).2) := by
  cases hs : splitFirst ':' x with
  | none =>
    left
    constructor <;> simp [schemeSplit, hs]
  | some p =>
    obtain ⟨pre, post⟩ := p
    obtain ⟨h1, _⟩ := splitFirst_shape hs
    cases pre with
    | nil =>
      left
      constructor <;> simp [schemeSplit, hs]
    | cons c0 t0 =>
      by_cases hv : c0.isAlpha = true ∧ ((c0 :: t0).all fun c => scheme_char c) = true
      · right
        have hfst : (schemeSplit d x).1 = pyLower (c0 :: t0) := by
          simp only [schemeSplit, hs]
          rw [if_pos hv]
        have hsnd : (schemeSplit d x).2 = post := by
          simp only [schemeSplit, hs]
          rw [if_pos hv]
        refine ⟨c0 :: t0, c0, t0, rfl, hv.1,
          fun c hc => (List.all_eq_true.mp hv.2) c hc, hfst, ?_⟩
        rw [hsnd]
        exact h1
      · left
        have hfst : (schemeSplit d x).1 = d := by
          simp only [schemeSplit, hs]
          rw [if_neg hv]
        have hsnd : (schemeSplit d x).2 = x := by
          simp only [schemeSplit, hs]
          rw [if_neg hv]
        exact ⟨hfst, hsnd⟩

theorem schemeSplit_mem_snd (d x : Str) : ∀ c ∈ (schemeSplit d x).2, c ∈ x := by
  intro c hc
  rcases schemeSplit_fst d x with ⟨_, h2⟩ | ⟨pre, c0, t0, _, _, _, _, hx⟩
  · rw [h2] at hc
    exact hc
  · rw [hx]
    exact List.mem_append_right _ (List.mem_cons_of_mem _ hc)

/-- Decompose a successful `urlsplit` into its pipeline pieces. -/
theorem urlsplit_ok_elim {u d : Str} {r : SplitResult} (h : urlsplit u d = .ok r) :
    ¬bracketBad r.netloc ∧
    r.scheme = (schemeSplit (cleanUrl d) (cleanUrl u)).1 ∧
    r.netloc = (netlocSplit (schemeSplit (cleanUrl d) (cleanUrl u)).2).1 ∧
    r.path =
      (cutFirst '?' (cutFirst '#'
        (netlocSplit (schemeSplit (cleanUrl d) (cleanUrl u)).2).2).1).1 ∧
    r.query =
      (cutFirst '?' (cutFirst '#'
        (netlocSplit (schemeSplit (cleanUrl d) (cleanUrl u)).2).2).1).2 ∧
    r.fragment =
      (cutFirst '#' (netlocSplit (schemeSplit (cleanUrl d) (cleanUrl u)).2).2).2 := by
  unfold urlsplit at h
  by_cases hbr : bracketBad (netlocSplit (schemeSplit (cleanUrl d) (cleanUrl u)).2).1
  · rw [if_pos hbr] at h
    cases h
  · rw [if_neg hbr] at h
    cases h
    exact ⟨hbr, rfl, rfl, rfl, rfl, rfl⟩

/-- A successful `urlsplit` with a well-formed default scheme yields
well-formed components. -/
theorem urlsplit_wf {u d : Str} {r : SplitResult} (h : urlsplit u d = .ok r)
    (hd : SchemeOk d) :
    SchemeOk r.scheme ∧
    (∀ c ∈ r.netloc, netlocDelim c = false) ∧
    ¬bracketBad r.netloc ∧
    '#' ∉ r.path ∧ '?' ∉ r.path ∧ '#' ∉ r.query ∧
    (∀ c ∈ r.netloc, goodChar c) ∧ (∀ c ∈ r.path, goodChar c) ∧
    (∀ c ∈ r.query, goodChar c) := by
  obtain ⟨hbr, hsch, hnl, hpa, hq, hf⟩ := urlsplit_ok_elim h
  have hdclean : cleanUrl d = d := schemeOk_clean hd
  refine ⟨?_, ?_, hbr, ?_, ?_, ?_, ?_, ?_, ?_⟩
  · rw [hsch]
    rcases schemeSplit_fst (cleanUrl d) (cleanUrl u) with ⟨h1, _⟩ | h2
    · rw [h1, hdclean]
      exact hd
    · obtain ⟨pre, c0, t0, hpre, ha, hall, hfst, _⟩ := h2
      rw [hfst]
      constructor
      · right
        constructor
        · exact ⟨c0.toLower, pyLower t0, by rw [hpre]; rfl, toLower_isAlpha c0 ha⟩
        · intro c hc
          obtain ⟨b, hb, hbc⟩ := List.mem_map.mp hc
          rw [← hbc]
          exact toLower_scheme_char b (hall b hb)
      · exact pyLower_pyLower pre
  · rw [hnl]
    exact netlocSplit_fst_nodelim _
  · rw [hpa]
    intro hc
    exact (cutFirst_shape '#' _).2
      (cutFirst_mem_fst '?' _ _ hc)
  · rw [hpa]
    exact (cutFirst_shape '?' _).2
  · rw [hq]
    intro hc
    have h1 : '#' ∈
        (cutFirst '#' (netlocSplit (schemeSplit (cleanUrl d) (cleanUrl u)).2).2).1 := by
      rcases (cutFirst_shape '?'
        ((cutFirst '#' (netlocSplit (schemeSplit (cleanUrl d) (cleanUrl u)).2).2).1)).1
        with hsh | hsh
      · rw [hsh]
        exact List.mem_append_right _ (List.mem_cons_of_mem _ hc)
      · rw [hsh.2] at hc
        cases hc
    exact (cutFirst_shape '#' _).2 h1
  · intro c hc
    rw [hnl] at hc
    exact cleanUrl_good u c
      (schemeSplit_mem_snd _ _ c (netlocSplit_mem_fst _ c hc))
  · intro c hc
    rw [hpa] at hc
    exact cleanUrl_good u c
      (schemeSplit_mem_snd _ _ c (netlocSplit_mem_snd _ c
        (cutFirst_mem_fst '#' _ c (cutFirst_mem_fst '?' _ c hc))))
  · intro c hc
    rw [hq] at hc
    exact cleanUrl_good u c
      (schemeSplit_mem_snd _ _ c (netlocSplit_mem_snd _ c
        (cutFirst_mem_fst '#' _ c (cutFirst_mem_snd '?' _ c hc))))

/-- Decompose a successful `urlparse` over the underlying `urlsplit`:
the rejoined path is the split path, possibly missing one final `';'`. -/
theorem urlparse_path2 {u d : Str} {p : ParseResult} (h : urlparse u d = .ok p) :
    ∃ r, urlsplit u d = .ok r ∧ p.scheme = r.scheme ∧ p.netloc = r.netloc ∧
      p.query = r.query ∧ p.fragment = r.fragment ∧
      (rejoinParams p.path p.params = r.path ∨
        r.path = rejoinParams p.path p.params ++ [';']) := by
  unfold urlparse at h
  cases hs : urlsplit u d with
  | error e => rw [hs] at h; cases h
  | ok r =>
    rw [hs] at h
    rw [okBind] at h
    refine ⟨r, rfl, ?_⟩
    by_cases hc : r.scheme ∈ uses_params ∧ ';' ∈ r.path
    · rw [if_pos hc] at h
      cases h
      refine ⟨rfl, rfl, rfl, rfl, ?_⟩
      rcases splitparams_shape r.path with hsh | hsh
      · by_cases hp2 : (splitparams r.path).2 = []
        · right
          rw [rejoinParams, if_neg (by simp [hp2])]
          conv_lhs => rw [hsh]
          rw [hp2]
        · left
          rw [rejoinParams, if_pos (by simpa using hp2)]
          exact hsh.symm
      · left
        rw [rejoinParams, if_neg (by simp [hsh.2]), hsh.1]
    · rw [if_neg hc] at h
      cases h
      exact ⟨rfl, rfl, rfl, rfl, Or.inl (by rw [rejoinParams, if_neg (by simp)])⟩

/-- Well-formedness of a successful `urlparse`, stated on the rejoined
path (`path2`) that `geturl` will emit. -/
theorem urlparse_wf {u d : Str} {p : ParseResult} (h : urlparse u d = .ok p)
    (hd : SchemeOk d) :
    SchemeOk p.scheme ∧
    (∀ c ∈ p.netloc, netlocDelim c = false) ∧
    ¬bracketBad p.netloc ∧
    '#' ∉ rejoinParams p.path p.params ∧ '?' ∉ rejoinParams p.path p.params ∧
    '#' ∉ p.query ∧
    (∀ c ∈ p.netloc, goodChar c) ∧
    (∀ c ∈ rejoinParams p.path p.params, goodChar c) ∧
    (∀ c ∈ p.query, goodChar c) := by
  obtain ⟨r, hr, hsc, hnl, hq, hf, hpp⟩ := urlparse_path2 h
  obtain ⟨w1, w2, w3, w4, w5, w6, w7, w8, w9⟩ := urlsplit_wf hr hd
  have hsub : ∀ c ∈ rejoinParams p.path p.params, c ∈ r.path := by
    intro c hc
    rcases hpp with hpp | hpp
    · rw [← hpp]
      exact hc
    · rw [hpp]
      exact List.mem_append_left _ hc
  refine ⟨by rw [hsc]; exact w1, by rw [hnl]; exact w2, by rw [hnl]; exact w3,
    fun hc => w4 (hsub _ hc), fun hc => w5 (hsub _ hc),
    by rw [hq]; exact w6, by rw [hnl]; exact w7,
    fun c hc => w8 c (hsub c hc), by rw [hq]; exact w9⟩

/-! ## Reparsing the output of `geturl` -/

theorem rstripSlash_append_full {x : Str} (y : Str) (hx : rstripSlash x = x) :
    rstripSlash (x ++ y) = x ++ rstripSlash y := by
  rw [rstripSlash_append]
  by_cases hy : rstripSlash y = []
  · rw [if_pos hy, hy, List.append_nil, hx]
  · rw [if_neg hy]

theorem rstripSlash_eq_self_append {A n : Str} (hn : n ≠ []) (hnd : ∀ c ∈ n, c ≠ '/') :
    rstripSlash (A ++ n) = A ++ n := by
  rcases List.eq_nil_or_concat n with h | ⟨L, b, rfl⟩
  · exact absurd h hn
  · rw [List.concat_eq_append, ← List.append_assoc]
    exact rstripSlash_concat_ne _ b
      (hnd b (by rw [List.concat_eq_append]; exact
        List.mem_append_right _ (List.mem_singleton.mpr rfl)))

theorem mem_slashPath {c : Char} {p : Str} (h : c ∈ slashPath p) : c = '/' ∨ c ∈ p := by
  unfold slashPath at h
  split at h
  · rw [List.mem_cons] at h
    exact h
  · exact Or.inr h

/-- The `'/'`-prepended path is empty (iff the path was) or starts with
`'/'`. -/
theorem slashPath_head (p : Str) :
    slashPath p = [] ∨ ∃ w, slashPath p = '/' :: w := by
  unfold slashPath
  split
  · exact Or.inr ⟨p, rfl⟩
  · rename_i hcond
    rw [Decidable.not_and_iff_or_not] at hcond
    rcases hcond with hcond | hcond
    · rw [not_not] at hcond
      exact Or.inl hcond
    · rw [not_not] at hcond
      cases p with
      | nil => exact Or.inl rfl
      | cons a t =>
        right
        refine ⟨t, ?_⟩
        have : a = '/' := by
          have := congrArg (fun l => l.head?) hcond
          simpa using this
        rw [this]

theorem netlocSplit_exact (n t : Str) (hnd : ∀ c ∈ n, netlocDelim c = false)
    (ht : t = [] ∨ (∃ w, t = '/' :: w) ∨ (∃ w, t = '?' :: w)) :
    netlocSplit ('/' :: '/' :: (n ++ t)) = (n, t) := by
  have htake : (n ++ t).takeWhile (fun c => !netlocDelim c) = n := by
    rw [List.takeWhile_append_of_pos (by
      intro a ha
      rw [hnd a ha]
      rfl)]
    rcases ht with rfl | ⟨w, rfl⟩ | ⟨w, rfl⟩
    · rw [List.takeWhile_nil, List.append_nil]
    · rw [List.takeWhile_cons]
      norm_num [netlocDelim]
    · rw [List.takeWhile_cons]
      norm_num [netlocDelim]
  have hdrop : (n ++ t).dropWhile (fun c => !netlocDelim c) = t := by
    rw [List.dropWhile_append_of_pos (by
      intro a ha
      rw [hnd a ha]
      rfl)]
    rcases ht with rfl | ⟨w, rfl⟩ | ⟨w, rfl⟩
    · rw [List.dropWhile_nil]
    · rw [List.dropWhile_cons]
      norm_num [netlocDelim]
    · rw [List.dropWhile_cons]
      norm_num [netlocDelim]
  show ((n ++ t).takeWhile (fun c => !netlocDelim c),
    (n ++ t).dropWhile (fun c => !netlocDelim c)) = (n, t)
  rw [htake, hdrop]

/-- Evaluate `urlsplit` on an already-clean string. -/
theorem urlsplit_compute (v : Str) (hclean : cleanUrl v = v) :
    urlsplit v [] =
      (if bracketBad (netlocSplit (schemeSplit [] v).2).1 then .error () else
        .ok ⟨(schemeSplit [] v).1, (netlocSplit (schemeSplit [] v).2).1,
          (cutFirst '?' (cutFirst '#' (netlocSplit (schemeSplit [] v).2).2).1).1,
          (cutFirst '?' (cutFirst '#' (netlocSplit (schemeSplit [] v).2).2).1).2,
          (cutFirst '#' (netlocSplit (schemeSplit [] v).2).2).2⟩) := by
  unfold urlsplit
  rw [hclean]
  rfl

/-- Re-splitting the normalized rendering of parsed components with a
nonempty netloc: the scheme and netloc are recovered exactly; the path
and query only lose trailing slashes (the query when present, else the
path). -/
theorem urlsplit_reparse (s n path2 q : Str)
    (hn : n ≠ [])
    (hnd : ∀ c ∈ n, netlocDelim c = false)
    (hbr : ¬bracketBad n)
    (hsch : SchemeOk s)
    (hph : '#' ∉ path2) (hpq : '?' ∉ path2)
    (hqh : '#' ∉ q)
    (hnc : ∀ c ∈ n, goodChar c) (hpc : ∀ c ∈ path2, goodChar c)
    (hqc : ∀ c ∈ q, goodChar c) :
    rstripSlash (urlunsplit s n path2 q []) ≠ [] ∧
    urlsplit (rstripSlash (urlunsplit s n path2 q [])) [] =
      .ok ⟨s, n,
        (if q = [] then rstripSlash (slashPath path2) else slashPath path2),
        (if q = [] then [] else rstripSlash q), []⟩ := by
  have hslash : ∀ c ∈ n, c ≠ '/' := by
    intro c hc hce
    have h2 := hnd c hc
    rw [hce] at h2
    norm_num [netlocDelim] at h2
  -- the rendered string, rearranged as PRE ++ tail
  have hout : urlunsplit s n path2 q [] =
      ((if s = [] then [] else s ++ [':']) ++ ['/', '/'] ++ n) ++
        (slashPath path2 ++ (if q = [] then [] else '?' :: q)) := by
    simp only [urlunsplit]
    rw [if_pos (Or.inl hn)]
    by_cases hs0 : s = [] <;> by_cases hq : q = [] <;>
      simp [hs0, hq, List.append_assoc]
  have hpre : rstripSlash ((if s = [] then [] else s ++ [':']) ++ ['/', '/'] ++ n) =
      (if s = [] then [] else s ++ [':']) ++ ['/', '/'] ++ n := by
    exact rstripSlash_eq_self_append hn hslash
  have hv : rstripSlash (urlunsplit s n path2 q []) =
      ((if s = [] then [] else s ++ [':']) ++ ['/', '/'] ++ n) ++
        rstripSlash (slashPath path2 ++ (if q = [] then [] else '?' :: q)) := by
    rw [hout]
    exact rstripSlash_append_full _ hpre
  -- the stripped tail
  have htfin : rstripSlash (slashPath path2 ++ (if q = [] then [] else '?' :: q)) =
      if q = [] then rstripSlash (slashPath path2)
      else slashPath path2 ++ '?' :: rstripSlash q := by
    by_cases hq : q = []
    · rw [if_pos hq, if_pos hq, List.append_nil]
    · rw [if_neg hq, if_neg hq]
      rw [rstripSlash_append, rstripSlash_cons_ne '?' q (by decide)]
      rw [if_neg (by simp)]
  -- head shape of the stripped tail
  have htailhead :
      rstripSlash (slashPath path2 ++ (if q = [] then [] else '?' :: q)) = [] ∨
      (∃ w, rstripSlash (slashPath path2 ++ (if q = [] then [] else '?' :: q)) = '/' :: w) ∨
      (∃ w, rstripSlash (slashPath path2 ++ (if q = [] then [] else '?' :: q)) = '?' :: w) := by
    by_cases hz : rstripSlash (slashPath path2 ++ (if q = [] then [] else '?' :: q)) = []
    · exact Or.inl hz
    · right
      have hhead := rstripSlash_head_eq hz
      rcases slashPath_head path2 with hsp0 | ⟨w, hspw⟩
      · by_cases hq : q = []
        · exfalso
          apply hz
          rw [hsp0, if_pos hq]
          rfl
        · right
          rw [hsp0, if_neg hq, List.nil_append] at hhead ⊢
          cases hfin : rstripSlash ('?' :: q) with
          | nil => exact absurd hfin (by rw [rstripSlash_cons_ne '?' q (by decide)]; simp)
          | cons a w2 =>
            refine ⟨w2, ?_⟩
            rw [hfin] at hhead
            simp only [List.head?_cons] at hhead
            rw [Option.some.inj hhead]
      · left
        rw [hspw] at hhead ⊢
        rw [List.cons_append] at hhead ⊢
        cases hfin : rstripSlash ('/' :: (w ++ (if q = [] then [] else '?' :: q))) with
        | nil =>
          exact absurd (by rw [hspw, List.cons_append]; exact hfin) hz
        | cons a w2 =>
          refine ⟨w2, ?_⟩
          rw [hfin] at hhead
          simp only [List.head?_cons] at hhead
          rw [Option.some.inj hhead]
  -- membership in the tail
  have htailmem : ∀ c ∈ slashPath path2 ++ (if q = [] then [] else '?' :: q),
      c = '/' ∨ c ∈ path2 ∨ c = '?' ∨ c ∈ q := by
    intro c hc
    rcases List.mem_append.mp hc with hc | hc
    · rcases mem_slashPath hc with hc | hc
      · exact Or.inl hc
      · exact Or.inr (Or.inl hc)
    · by_cases hq : q = []
      · rw [if_pos hq] at hc
        cases hc
      · rw [if_neg hq, List.mem_cons] at hc
        rcases hc with hc | hc
        · exact Or.inr (Or.inr (Or.inl hc))
        · exact Or.inr (Or.inr (Or.inr hc))
  have htfinmem : ∀ c ∈ rstripSlash (slashPath path2 ++ (if q = [] then [] else '?' :: q)),
      c = '/' ∨ c ∈ path2 ∨ c = '?' ∨ c ∈ q :=
    fun c hc => htailmem c (mem_rstripSlash hc)
  -- the full stripped string is clean
  have hvgood : ∀ c ∈ rstripSlash (urlunsplit s n path2 q []), goodChar c := by
    rw [hv]
    intro c hc
    rcases List.mem_append.mp hc with hc | hc
    · rcases List.mem_append.mp hc with hc | hc
      · rcases List.mem_append.mp hc with hc | hc
        · by_cases hs0 : s = []
          · rw [if_pos hs0] at hc
            cases hc
          · rw [if_neg hs0] at hc
            rcases List.mem_append.mp hc with hc | hc
            · exact schemeOk_good hsch c hc
            · rw [List.mem_singleton] at hc
              rw [hc]
              intro hbad
              rcases hbad with hb | hb | hb <;> cases hb
        · rw [List.mem_cons, List.mem_singleton] at hc
          rcases hc with hc | hc <;>
            (rw [hc]; intro hbad; rcases hbad with hb | hb | hb <;> cases hb)
      · exact hnc c hc
    · rcases htfinmem c hc with hc | hc | hc | hc
      · rw [hc]
        intro hbad
        rcases hbad with hb | hb | hb <;> cases hb
      · exact hpc c hc
      · rw [hc]
        intro hbad
        rcases hbad with hb | hb | hb <;> cases hb
      · exact hqc c hc
  have hvne : rstripSlash (urlunsplit s n path2 q []) ≠ [] := by
    rw [hv]
    intro hcon
    have h2 := congrArg List.length hcon
    simp at h2
  refine ⟨hvne, ?_⟩
  -- scheme step
  have hschemestep :
      schemeSplit [] (rstripSlash (urlunsplit s n path2 q [])) =
        (s, '/' :: '/' :: (n ++
          rstripSlash (slashPath path2 ++ (if q = [] then [] else '?' :: q)))) := by
    rw [hv]
    by_cases hs0 : s = []
    · rw [if_pos hs0]
      rw [List.nil_append]
      have hform : (['/', '/'] ++ n) ++
          rstripSlash (slashPath path2 ++ (if q = [] then [] else '?' :: q)) =
          '/' :: ('/' :: (n ++
            rstripSlash (slashPath path2 ++ (if q = [] then [] else '?' :: q)))) := by
        simp [List.append_assoc]
      rw [hform]
      rw [schemeSplit_headNotAlpha [] (by decide)]
      rw [hs0]
    · rw [if_neg hs0]
      rcases hsch.1 with hcon | ⟨⟨c0, t0, hs0t, ha⟩, hall⟩
      · exact absurd hcon hs0
      · have hform : ((s ++ [':']) ++ ['/', '/'] ++ n) ++
            rstripSlash (slashPath path2 ++ (if q = [] then [] else '?' :: q)) =
            s ++ ':' :: ('/' :: '/' :: (n ++
              rstripSlash (slashPath path2 ++ (if q = [] then [] else '?' :: q)))) := by
          simp [List.append_assoc]
        rw [hform]
        rw [schemeSplit_valid [] hs0t ha hall]
        rw [hsch.2]
  -- netloc step
  have hnetstep : netlocSplit ('/' :: '/' :: (n ++
      rstripSlash (slashPath path2 ++ (if q = [] then [] else '?' :: q)))) =
      (n, rstripSlash (slashPath path2 ++ (if q = [] then [] else '?' :: q))) := by
    apply netlocSplit_exact n _ hnd
    rcases htailhead with h1 | ⟨w, h1⟩ | ⟨w, h1⟩
    · exact Or.inl h1
    · exact Or.inr (Or.inl ⟨w, h1⟩)
    · exact Or.inr (Or.inr ⟨w, h1⟩)
  -- fragment step: no '#' anywhere in the stripped tail
  have hnohash : '#' ∉ rstripSlash (slashPath path2 ++ (if q = [] then [] else '?' :: q)) := by
    intro hc
    rcases htfinmem '#' hc with hc | hc | hc | hc
    · cases hc
    · exact hph hc
    · cases hc
    · exact hqh hc
  -- query step
  have hquerystep : cutFirst '?'
      (rstripSlash (slashPath path2 ++ (if q = [] then [] else '?' :: q))) =
      ((if q = [] then rstripSlash (slashPath path2) else slashPath path2),
       (if q = [] then [] else rstripSlash q)) := by
    by_cases hq : q = []
    · rw [htfin, if_pos hq, if_pos hq, if_pos hq]
      apply cutFirst_not_mem
      intro hc
      rcases mem_slashPath (mem_rstripSlash hc) with hc | hc
      · cases hc
      · exact hpq hc
    · rw [htfin, if_neg hq, if_neg hq, if_neg hq]
      apply cutFirst_before
      intro hc
      rcases mem_slashPath hc with hc | hc
      · cases hc
      · exact hpq hc
  rw [urlsplit_compute _ (cleanUrl_eq_self hvgood)]
  rw [hschemestep, hnetstep]
  rw [if_neg hbr]
  rw [cutFirst_not_mem hnohash]
  rw [hquerystep]

theorem pyLower_nil {l : Str} : pyLower l = [] ↔ l = [] := by
  unfold pyLower
  cases l <;> simp

/-- A successful `urlsplit` yields a successful `urlparse` with the same
scheme and netloc. -/
theorem urlparse_of_urlsplit {v d : Str} {r : SplitResult} (h : urlsplit v d = .ok r) :
    ∃ p', urlparse v d = .ok p' ∧ p'.scheme = r.scheme ∧ p'.netloc = r.netloc := by
  unfold urlparse
  rw [h, okBind]
  by_cases hc : r.scheme ∈ uses_params ∧ ';' ∈ r.path
  · rw [if_pos hc]
    exact ⟨_, rfl, rfl, rfl⟩
  · rw [if_neg hc]
    exact ⟨_, rfl, rfl, rfl⟩

/-- `normalize_url` on a URL that parses: drop the fragment, re-render,
strip trailing slashes unless that would leave nothing. -/
theorem normalize_url_elim {u : Str} {p : ParseResult} (h : urlparse u [] = .ok p) :
    normalize_url u = .ok
      (if rstripSlash (urlunparse { p with fragment := [] }) = []
       then urlunparse { p with fragment := [] }
       else rstripSlash (urlunparse { p with fragment := [] })) := by
  unfold normalize_url
  rw [h]
  rfl

/-- `normalize_url` on a URL whose parse has a nonempty netloc: it
succeeds, and the result re-parses with the same scheme and the same
netloc.  (The netloc can change when it is empty: the path's leading
slashes can be re-read as a netloc, see the claim C4 counterexample.) -/
theorem netloc_preserved {u : Str} {p : ParseResult}
    (h : urlparse u [] = .ok p) (hn : p.netloc ≠ []) :
    ∃ v p', normalize_url u = .ok v ∧ urlparse v [] = .ok p' ∧
      p'.scheme = p.scheme ∧ p'.netloc = p.netloc := by
  obtain ⟨w1, w2, w3, w4, w5, w6, w7, w8, w9⟩ := urlparse_wf h schemeOk_nil
  obtain ⟨hvne, hsplit⟩ := urlsplit_reparse p.scheme p.netloc
    (rejoinParams p.path p.params) p.query hn w2 w3 w1 w4 w5 w6 w7 w8 w9
  obtain ⟨p', hp', hps, hpn⟩ := urlparse_of_urlsplit hsplit
  refine ⟨_, p', ?_, hp', hps, hpn⟩
  rw [normalize_url_elim h]
  have hup : urlunparse { p with fragment := [] } =
      urlunsplit p.scheme p.netloc (rejoinParams p.path p.params) p.query [] := rfl
  rw [hup, if_neg hvne]

/-- Every link produced by the anchor loop, when the base parses with a
nonempty netloc, itself parses with a case-insensitively equal netloc. -/
theorem gatherLinks_same_host {pb : ParseResult} (base : Str) (hrefs links : List Str)
    (h : gatherLinks base hrefs = .ok links)
    (hb : urlparse base [] = .ok pb) (hbn : pb.netloc ≠ []) :
    ∀ l ∈ links, ∃ p', urlparse l [] = .ok p' ∧
      pyLower p'.netloc = pyLower pb.netloc := by
  induction hrefs generalizing links with
  | nil =>
    cases h
    intro l hl
    cases hl
  | cons hd tl ih =>
    intro l hl
    rw [gatherLinks] at h
    by_cases hmt : beginsWith (pyStrip hd) "mailto:".data = true ∨
        beginsWith (pyStrip hd) "tel:".data = true
    · rw [if_pos hmt] at h
      exact ih links h l hl
    · rw [if_neg hmt] at h
      cases hj : urljoin base (pyStrip hd) with
      | error e => rw [hj] at h; cases h
      | ok absolute =>
        rw [hj] at h
        simp only [okBind] at h
        cases hsd : is_same_domain base absolute with
        | error e => rw [hsd] at h; cases h
        | ok sd =>
          rw [hsd] at h
          simp only [okBind] at h
          by_cases hc : sd = true ∧ keywordHit (pyStrip hd) = true
          · rw [if_pos hc] at h
            cases hnm : normalize_url absolute with
            | error e => rw [hnm] at h; cases h
            | ok n =>
              rw [hnm] at h
              simp only [okBind] at h
              cases hrest : gatherLinks base tl with
              | error e => rw [hrest] at h; cases h
              | ok rest =>
                rw [hrest] at h
                simp only [okBind] at h
                cases h
                rw [List.mem_cons] at hl
                rcases hl with hl | hl
                · -- the new link: extract the target parse from is_same_domain
                  unfold is_same_domain at hsd
                  rw [hb] at hsd
                  simp only [okBind] at hsd
                  cases hpt : urlparse absolute [] with
                  | error e => rw [hpt] at hsd; cases hsd
                  | ok pt =>
                    rw [hpt] at hsd
                    simp only [okBind] at hsd
                    cases hsd
                    have heqlow : pyLower pb.netloc = pyLower pt.netloc := by
                      have := hc.1
                      rwa [beq_iff_eq] at this
                    have hptn : pt.netloc ≠ [] := by
                      intro hcon
                      apply hbn
                      rw [← pyLower_nil, heqlow, hcon]
                      rfl
                    obtain ⟨v, p', hv, hp', _, hpn⟩ := netloc_preserved hpt hptn
                    rw [hnm] at hv
                    cases hv
                    refine ⟨p', by rw [hl]; exact hp', ?_⟩
                    rw [hpn, ← heqlow]
                · exact ih rest hrest l hl
          · rw [if_neg hc] at h
            exact ih links h l hl

/-- `find_internal_links` version of `gatherLinks_same_host`. -/
theorem find_internal_links_same_host {pb : ParseResult} (base : Str)
    (hrefs links : List Str)
    (h : find_internal_links base hrefs = .ok links)
    (hb : urlparse base [] = .ok pb) (hbn : pb.netloc ≠ []) :
    ∀ l ∈ links, ∃ p', urlparse l [] = .ok p' ∧
      pyLower p'.netloc = pyLower pb.netloc := by
  unfold find_internal_links at h
  cases hg : gatherLinks base hrefs with
  | error e => rw [hg] at h; cases h
  | ok raw =>
    rw [hg] at h
    simp only [okBind] at h
    cases h
    intro l hl
    exact gatherLinks_same_host base hrefs raw hg hb hbn l (pyDictFromKeys_subset raw l hl)

/-- Counterexample environment for claim C4: only the well-formed URL
`http://x` (http scheme, nonempty host — exactly the shape `requests`
can fetch) is served, yielding a page whose sole anchor is `/security`;
every other fetch raises a `RequestException` (e.g. a network failure,
or `requests`' own `InvalidSchema`/`InvalidURL` for non-http(s) or
hostless URLs, all of which `scan_site` catches). -/
def C4env : ScanEnv where
  web := fun s => if s = "http://x".data then some "h".data else none
  anchors := fun _ => ["/security".data]
  extract_text := fun _ => []
  match_certifications := fun _ => ∅
  match_remote := fun _ => ∅
  max_pages := 2
  delay := 0

/-- C4 (corrected, counterexample): the seed `http:////x` parses with an
EMPTY netloc (its path is `//x`), but `normalize_url` re-renders it as
`http://x`, whose host is `x`.  Crawling it fetches `http://x` (a
perfectly fetchable http URL) and enqueues and visits
`http://x/security`, whose host `x` differs from the seed's empty host:
the visited set contains a URL that is neither same-domain with the
seed nor the normalized seed itself. -/
theorem claim_C4_counterexample :
    scanSiteFull C4env "http:////x".data =
      .ok ⟨[], ["http://x/security".data, "http://x".data], ∅, ∅, 1, 0,
        [.fetchOk "http://x".data, .fetchFail "http://x/security".data]⟩ ∧
    "http://x/security".data ∈ ["http://x/security".data, "http://x".data] ∧
    is_same_domain "http:////x".data "http://x/security".data = .ok false ∧
    normalize_url "http:////x".data = .ok "http://x".data ∧
    "http://x/security".data ≠ "http://x".data := by
  refine ⟨?_, by decide, rfl, rfl, by decide⟩
  unfold scanSiteFull
  rw [show normalize_url "http:////x".data = .ok "http://x".data from rfl]
  simp only [okBind]
  rw [scanLoop_succ_more C4env ⟨["http://x".data], [], ∅, ∅, 0, 0, []⟩ "http://x".data []
    "h".data ["http://x/security".data] rfl (by decide) (by decide) (by decide)
    (by decide) rfl]
  show scanLoop C4env ⟨["http://x/security".data], ["http://x".data], ∅, ∅, 1, 0,
    [.fetchOk "http://x".data]⟩ = _
  rw [scanLoop_fail C4env ⟨["http://x/security".data], ["http://x".data], ∅, ∅, 1, 0,
    [.fetchOk "http://x".data]⟩ "http://x/security".data [] rfl (by decide) (by decide)
    (by decide)]
  rw [scanLoop_nil _ _ rfl]
  rfl

/-- C4 (corrected): when the seed URL parses with a NONEMPTY netloc,
every URL in the final visited set parses successfully and has the same
host as the seed, case-insensitively.  (For a seed with an empty netloc
the claim fails, see the counterexample.) -/
theorem claim_C4 (env : ScanEnv) (url : Str) (ps : ParseResult) (st : CrawlState)
    (hp : urlparse url [] = .ok ps) (hn : ps.netloc ≠ [])
    (hrun : scanSiteFull env url = .ok st) :
    ∀ u ∈ st.seen, ∃ p', urlparse u [] = .ok p' ∧
      pyLower p'.netloc = pyLower ps.netloc := by
  obtain ⟨n0, hn0, hloop⟩ := scanSiteFull_elim hrun
  obtain ⟨v, pv, hv, hpv, _, hvn⟩ := netloc_preserved hp hn
  rw [hn0] at hv
  cases hv
  have main := scanLoop_preserve env
    (fun s =>
      (∀ u ∈ s.seen, ∃ p', urlparse u [] = .ok p' ∧
        pyLower p'.netloc = pyLower ps.netloc) ∧
      (∀ u ∈ s.queue, ∃ p', urlparse u [] = .ok p' ∧
        pyLower p'.netloc = pyLower ps.netloc))
    (by
      intro s current rest hq _ _ hP
      refine ⟨hP.1, ?_⟩
      intro u hu
      exact hP.2 u (by rw [hq]; exact List.mem_cons_of_mem _ hu))
    (by
      intro s current rest hq _ _ _ hP
      constructor
      · intro u hu
        rcases List.mem_cons.mp hu with hu | hu
        · rw [hu]
          exact hP.2 current (by rw [hq]; exact List.mem_cons_self _ _)
        · exact hP.1 u hu
      · intro u hu
        exact hP.2 u (by rw [hq]; exact List.mem_cons_of_mem _ hu))
    (by
      intro s current rest html hq _ _ _ hP
      constructor
      · intro u hu
        rcases List.mem_cons.mp hu with hu | hu
        · rw [hu]
          exact hP.2 current (by rw [hq]; exact List.mem_cons_self _ _)
        · exact hP.1 u hu
      · intro u hu
        exact hP.2 u (by rw [hq]; exact List.mem_cons_of_mem _ hu))
    (by
      intro s current rest html links hq _ _ _ hok hP
      have hcur := hP.2 current (by rw [hq]; exact List.mem_cons_self _ _)
      obtain ⟨pc, hpc, hpcl⟩ := hcur
      have hpcn : pc.netloc ≠ [] := by
        intro hcon
        apply hn
        rw [← pyLower_nil, ← hpcl, hcon]
        rfl
      constructor
      · intro u hu
        rcases List.mem_cons.mp hu with hu | hu
        · rw [hu]
          exact ⟨pc, hpc, hpcl⟩
        · exact hP.1 u hu
      · intro u hu
        rcases List.mem_append.mp hu with hu | hu
        · exact hP.2 u (by rw [hq]; exact List.mem_cons_of_mem _ hu)
        · have hm := List.mem_filter.mp hu
          obtain ⟨p', hp', hpl⟩ :=
            find_internal_links_same_host current (env.anchors html) links hok
              hpc hpcn u hm.1
          exact ⟨p', hp', by rw [hpl, hpcl]⟩)
    _ st hloop
    (by
      constructor
      · intro u hu
        cases hu
      · intro u hu
        rw [List.mem_singleton] at hu
        rw [hu]
        exact ⟨pv, hpv, by rw [hvn]⟩)
  exact main.1

/-- Witness for C4 at a concrete crawl: seed `http://a.com`, every fetch
failing, budget 1; the lone visited URL parses with host `a.com`. -/
theorem claim_C4_witness :
    ∃ p', urlparse "http://a.com".data [] = .ok p' ∧
      pyLower p'.netloc = pyLower ("a.com".data) := by
  have h := claim_C4 (allFailEnv 1 0) "http://a.com".data
    ⟨"http".data, "a.com".data, [], [], [], []⟩
    ⟨[], ["http://a.com".data], ∅, ∅, 0, 0, [.fetchFail "http://a.com".data]⟩
    rfl (by decide)
    (allFailEnv_run 1 0 "http://a.com".data "http://a.com".data rfl
      (by norm_num))
  exact h "http://a.com".data (by decide)

/-- `dedupKeep` produces a duplicate-free list avoiding `seen`. -/
theorem dedupKeep_nodup (seen l : List Str) :
    (dedupKeep seen l).Nodup ∧ ∀ x ∈ dedupKeep seen l, x ∉ seen := by
  induction l generalizing seen with
  | nil => exact ⟨List.nodup_nil, by intro x hx; cases hx⟩
  | cons a t ih =>
    rw [dedupKeep]
    by_cases ha : a ∈ seen
    · rw [if_pos ha]
      exact ⟨(ih seen).1, (ih seen).2⟩
    · rw [if_neg ha]
      refine ⟨List.nodup_cons.mpr ⟨?_, (ih (a :: seen)).1⟩, ?_⟩
      · intro hcon
        exact ((ih (a :: seen)).2 a hcon) (List.mem_cons_self a seen)
      · intro x hx
        rcases List.mem_cons.mp hx with hx | hx
        · rw [hx]
          exact ha
        · intro hcon
          exact (ih (a :: seen)).2 x hx (List.mem_cons_of_mem a hcon)

/-- Every link produced by the anchor loop comes from some href of the
page that survived the `mailto:`/`tel:` skip, matched a keyword, resolved
via `urljoin`, passed the same-domain test, and was normalized. -/
theorem gatherLinks_provenance (base : Str) (hrefs links : List Str)
    (h : gatherLinks base hrefs = .ok links) :
    ∀ l ∈ links, ∃ href, href ∈ hrefs ∧
      ¬(beginsWith (pyStrip href) "mailto:".data = true ∨
        beginsWith (pyStrip href) "tel:".data = true) ∧
      keywordHit (pyStrip href) = true ∧
      ∃ a, urljoin base (pyStrip href) = .ok a ∧
        is_same_domain base a = .ok true ∧ normalize_url a = .ok l := by
  induction hrefs generalizing links with
  | nil =>
    cases h
    intro l hl
    cases hl
  | cons hd tl ih =>
    intro l hl
    rw [gatherLinks] at h
    by_cases hmt : beginsWith (pyStrip hd) "mailto:".data = true ∨
        beginsWith (pyStrip hd) "tel:".data = true
    · rw [if_pos hmt] at h
      obtain ⟨href, hh, rest⟩ := ih links h l hl
      exact ⟨href, List.mem_cons_of_mem _ hh, rest⟩
    · rw [if_neg hmt] at h
      cases hj : urljoin base (pyStrip hd) with
      | error e => rw [hj] at h; cases h
      | ok absolute =>
        rw [hj] at h
        simp only [okBind] at h
        cases hsd : is_same_domain base absolute with
        | error e => rw [hsd] at h; cases h
        | ok sd =>
          rw [hsd] at h
          simp only [okBind] at h
          by_cases hc : sd = true ∧ keywordHit (pyStrip hd) = true
          · rw [if_pos hc] at h
            cases hnm : normalize_url absolute with
            | error e => rw [hnm] at h; cases h
            | ok n =>
              rw [hnm] at h
              simp only [okBind] at h
              cases hrest : gatherLinks base tl with
              | error e => rw [hrest] at h; cases h
              | ok rest =>
                rw [hrest] at h
                simp only [okBind] at h
                cases h
                rw [List.mem_cons] at hl
                rcases hl with hl | hl
                · refine ⟨hd, List.mem_cons_self _ _, hmt, hc.2, absolute, hj, ?_, ?_⟩
                  · rw [← hc.1]
                    exact hsd
                  · rw [hnm, hl]
                · obtain ⟨href, hh, hrest'⟩ := ih rest hrest l hl
                  exact ⟨href, List.mem_cons_of_mem _ hh, hrest'⟩
          · rw [if_neg hc] at h
            obtain ⟨href, hh, rest'⟩ := ih links h l hl
            exact ⟨href, List.mem_cons_of_mem _ hh, rest'⟩

/-- The spec's "preserves first-seen order with exact duplicates
removed", written independently of the code: scan left to right,
appending each element the first time it is seen. -/
def firstSeenDedup (l : List Str) : List Str :=
  l.foldl (fun acc a => if a ∈ acc then acc else acc ++ [a]) []

/-- The accumulator form of `dedupKeep`: folding the keep-first-occurrence
step over `l` from `acc` appends exactly `dedupKeep seen l`, for any
`seen` with the same members as `acc`. -/
theorem dedupKeep_foldl (l : List Str) : ∀ acc seen : List Str,
    (∀ x, x ∈ seen ↔ x ∈ acc) →
    l.foldl (fun acc2 a => if a ∈ acc2 then acc2 else acc2 ++ [a]) acc =
      acc ++ dedupKeep seen l := by
  induction l with
  | nil =>
    intro acc seen _
    simp [dedupKeep]
  | cons a t ih =>
    intro acc seen hmem
    rw [List.foldl_cons, dedupKeep]
    by_cases ha : a ∈ acc
    · rw [if_pos ha, if_pos ((hmem a).mpr ha)]
      exact ih acc seen hmem
    · rw [if_neg ha, if_neg (fun h => ha ((hmem a).mp h))]
      rw [ih (acc ++ [a]) (a :: seen) (by
        intro x
        rw [List.mem_cons, List.mem_append, List.mem_singleton, hmem x]
        tauto)]
      simp [List.append_assoc]

/-- Python's `list(dict.fromkeys(links))` keeps the distinct elements in
first-seen order. -/
theorem pyDictFromKeys_firstSeen (l : List Str) :
    pyDictFromKeys l = firstSeenDedup l := by
  unfold pyDictFromKeys firstSeenDedup
  rw [dedupKeep_foldl l [] [] (by simp)]
  rfl

/-- `dedupKeep` preserves the order of the input: its output is a
subsequence. -/
theorem dedupKeep_sublist (seen l : List Str) : (dedupKeep seen l).Sublist l := by
  induction l generalizing seen with
  | nil => exact List.Sublist.refl []
  | cons a t ih =>
    rw [dedupKeep]
    by_cases ha : a ∈ seen
    · rw [if_pos ha]
      exact (ih seen).cons a
    · rw [if_neg ha]
      exact (ih (a :: seen)).cons₂ a

/-- C3 (corrected, counterexample): three outputs of
`find_internal_links` refuting parts of the claim.  With base `""` the
relative link `/security` is returned unresolved (no scheme, no host:
not absolute); with base `http://a.com` the href `MAILTO://...` passes
the case-sensitive `startswith("mailto:")` filter yet is returned as a
`mailto:`-scheme URL; with base `weird:x` the returned `//security` has
host `security` while the base's host is empty (not same-domain). -/
theorem claim_C3_counterexample :
    find_internal_links [] ["/security".data] = .ok ["/security".data] ∧
    urlparse "/security".data [] = .ok ⟨[], [], "/security".data, [], [], []⟩ ∧
    find_internal_links "http://a.com".data ["MAILTO://a.com/security".data] =
      .ok ["mailto://a.com/security".data] ∧
    beginsWith "mailto://a.com/security".data "mailto:".data = true ∧
    find_internal_links "weird:x".data ["////security".data] =
      .ok ["//security".data] ∧
    is_same_domain "weird:x".data "//security".data = .ok false :=
  ⟨rfl, rfl, rfl, by decide, rfl, rfl⟩

/-- C3 (corrected): the output of `find_internal_links` is duplicate-free
and is the first-seen-order deduplication (an order-preserving
subsequence) of the sequence of links gathered by the anchor loop; every
returned link comes from an href that is not a (lower-case)
`mailto:`/`tel:` reference and contains a keyword case-insensitively,
resolved against the base and passing the same-domain test, then
normalized; when the base URL itself parses with a nonempty host, every
returned link parses with the same host case-insensitively.
(Absoluteness, mailto-exclusion of the OUTPUT, and same-domain for
hostless bases all fail, see the counterexample.) -/
theorem claim_C3 (base : Str) (hrefs links : List Str)
    (h : find_internal_links base hrefs = .ok links) :
    links.Nodup ∧
    (∀ l ∈ links, ∃ href, href ∈ hrefs ∧
      ¬(beginsWith (pyStrip href) "mailto:".data = true ∨
        beginsWith (pyStrip href) "tel:".data = true) ∧
      keywordHit (pyStrip href) = true ∧
      ∃ a, urljoin base (pyStrip href) = .ok a ∧
        is_same_domain base a = .ok true ∧ normalize_url a = .ok l) ∧
    (∀ pb, urlparse base [] = .ok pb → pb.netloc ≠ [] →
      ∀ l ∈ links, ∃ p', urlparse l [] = .ok p' ∧
        pyLower p'.netloc = pyLower pb.netloc) ∧
    (∃ raw, gatherLinks base hrefs = .ok raw ∧
      links = firstSeenDedup raw ∧ links.Sublist raw) := by
  have hraw : ∃ raw, gatherLinks base hrefs = .ok raw ∧ links = pyDictFromKeys raw := by
    unfold find_internal_links at h
    cases hg : gatherLinks base hrefs with
    | error e => rw [hg] at h; cases h
    | ok raw =>
      rw [hg] at h
      simp only [okBind] at h
      cases h
      exact ⟨raw, rfl, rfl⟩
  obtain ⟨raw, hg, hlinks⟩ := hraw
  refine ⟨?_, ?_, ?_, ?_⟩
  · rw [hlinks]
    exact (dedupKeep_nodup [] raw).1
  · intro l hl
    rw [hlinks] at hl
    exact gatherLinks_provenance base hrefs raw hg l (pyDictFromKeys_subset raw l hl)
  · intro pb hpb hpbn
    exact find_internal_links_same_host base hrefs links h hpb hpbn
  · refine ⟨raw, hg, ?_, ?_⟩
    · rw [hlinks, pyDictFromKeys_firstSeen]
    · rw [hlinks]
      exact dedupKeep_sublist [] raw

/-- Witness for C3 at base `http://a.com` with the single href
`/security`. -/
theorem claim_C3_witness :
    (["http://a.com/security".data] : List Str).Nodup ∧
    (∀ l ∈ (["http://a.com/security".data] : List Str), ∃ href,
      href ∈ ["/security".data] ∧
      ¬(beginsWith (pyStrip href) "mailto:".data = true ∨
        beginsWith (pyStrip href) "tel:".data = true) ∧
      keywordHit (pyStrip href) = true ∧
      ∃ a, urljoin "http://a.com".data (pyStrip href) = .ok a ∧
        is_same_domain "http://a.com".data a = .ok true ∧
        normalize_url a = .ok l) ∧
    (∀ pb, urlparse "http://a.com".data [] = .ok pb → pb.netloc ≠ [] →
      ∀ l ∈ (["http://a.com/security".data] : List Str), ∃ p',
        urlparse l [] = .ok p' ∧ pyLower p'.netloc = pyLower pb.netloc) ∧
    (∃ raw, gatherLinks "http://a.com".data ["/security".data] = .ok raw ∧
      (["http://a.com/security".data] : List Str) = firstSeenDedup raw ∧
      (["http://a.com/security".data] : List Str).Sublist raw) :=
  claim_C3 "http://a.com".data ["/security".data] ["http://a.com/security".data] rfl

theorem dropWhile_idem {α : Type} (p : α → Bool) (l : List α) :
    (l.dropWhile p).dropWhile p = l.dropWhile p := by
  induction l with
  | nil => rfl
  | cons a t ih =>
    rw [List.dropWhile_cons]
    by_cases hp : p a = true
    · rw [if_pos hp]
      exact ih
    · rw [if_neg hp, List.dropWhile_cons, if_neg hp]

theorem rstripSlash_idem (l : Str) : rstripSlash (rstripSlash l) = rstripSlash l := by
  unfold rstripSlash
  rw [List.reverse_reverse, dropWhile_idem]

/-- A string unchanged by `rstrip("/")` is empty or ends in a
non-slash character. -/
theorem rstrip_stable_last {l : Str} (h : rstripSlash l = l) (hne : l ≠ []) :
    ∃ y b, l = y ++ [b] ∧ b ≠ '/' := by
  rcases List.eq_nil_or_concat l with h0 | ⟨y, b, hyb⟩
  · exact absurd h0 hne
  · rw [List.concat_eq_append] at hyb
    refine ⟨y, b, hyb, ?_⟩
    intro hb
    rw [hyb, hb] at h
    have h1 : rstripSlash (y ++ ['/']) = rstripSlash y := by
      rw [rstripSlash_append, if_pos (show rstripSlash ['/'] = [] from rfl)]
    rw [h1] at h
    obtain ⟨k, hk⟩ := rstripSlash_decomp y
    rw [h] at hk
    have h2 := congrArg List.length hk
    simp at h2

theorem slashPath_idem (p : Str) : slashPath (slashPath p) = slashPath p := by
  rcases slashPath_head p with h | ⟨w, h⟩
  · rw [h]
    rfl
  · rw [h]
    unfold slashPath
    rw [if_neg (by simp)]

theorem slashPath_rstrip (p : Str) :
    slashPath (rstripSlash (slashPath p)) = rstripSlash (slashPath p) := by
  by_cases h0 : rstripSlash (slashPath p) = []
  · rw [h0]
    rfl
  · have hh := rstripSlash_head_eq h0
    rcases slashPath_head p with h | ⟨w, h⟩
    · rw [h] at h0
      exact absurd rfl h0
    · rw [h] at hh h0 ⊢
      cases hc : rstripSlash ('/' :: w) with
      | nil => exact absurd hc h0
      | cons a t =>
        rw [hc] at hh
        simp only [List.head?_cons] at hh
        have ha := Option.some.inj hh
        unfold slashPath
        rw [if_neg (by simp [ha])]

theorem rstripSlash_tail_query (p q : Str) :
    rstripSlash (slashPath p ++ '?' :: q) = slashPath p ++ '?' :: rstripSlash q := by
  rw [rstripSlash_append, rstripSlash_cons_ne '?' q (by decide)]
  rw [if_neg (by simp)]

/-- The rendering of `urlunsplit` with a nonempty netloc and no
fragment, written as one append chain. -/
theorem urlunsplit_ne (s n path q : Str) (hn : n ≠ []) :
    urlunsplit s n path q [] =
      (if s = [] then [] else s ++ [':']) ++ ['/', '/'] ++ n ++
        (slashPath path ++ (if q = [] then [] else '?' :: q)) := by
  simp only [urlunsplit]
  rw [if_pos (Or.inl hn)]
  by_cases hs0 : s = [] <;> by_cases hq : q = [] <;>
    simp [hs0, hq, List.append_assoc]

/-- Stripping trailing slashes from the rendering only affects the part
after the netloc. -/
theorem normalize_form (s n path q : Str) (hn : n ≠ [])
    (hnd : ∀ c ∈ n, c ≠ '/') :
    rstripSlash (urlunsplit s n path q []) =
      (if s = [] then [] else s ++ [':']) ++ ['/', '/'] ++ n ++
        rstripSlash (slashPath path ++ (if q = [] then [] else '?' :: q)) := by
  rw [urlunsplit_ne s n path q hn]
  exact rstripSlash_append_full _ (rstripSlash_eq_self_append hn hnd)

theorem urlunsplit_ne_noq (s n path : Str) (hn : n ≠ []) :
    urlunsplit s n path [] [] =
      (if s = [] then [] else s ++ [':']) ++ ['/', '/'] ++ n ++ slashPath path := by
  rw [urlunsplit_ne s n path [] hn]
  simp

theorem urlunsplit_ne_q (s n path q : Str) (hn : n ≠ []) (hq : q ≠ []) :
    urlunsplit s n path q [] =
      (if s = [] then [] else s ++ [':']) ++ ['/', '/'] ++ n ++
        (slashPath path ++ '?' :: q) := by
  rw [urlunsplit_ne s n path q hn, if_neg hq]

theorem normalize_form_noq (s n path : Str) (hn : n ≠ [])
    (hnd : ∀ c ∈ n, c ≠ '/') :
    rstripSlash (urlunsplit s n path [] []) =
      (if s = [] then [] else s ++ [':']) ++ ['/', '/'] ++ n ++
        rstripSlash (slashPath path) := by
  rw [normalize_form s n path [] hn hnd]
  simp

theorem normalize_form_q (s n path q : Str) (hn : n ≠ [])
    (hnd : ∀ c ∈ n, c ≠ '/') (hq : q ≠ []) :
    rstripSlash (urlunsplit s n path q []) =
      (if s = [] then [] else s ++ [':']) ++ ['/', '/'] ++ n ++
        (slashPath path ++ '?' :: rstripSlash q) := by
  rw [normalize_form s n path q hn hnd, if_neg hq, rstripSlash_tail_query]

/-- C9 (corrected, counterexample): `normalize_url` is NOT idempotent:
on `"////"` it returns `"//"` (the all-slash fallback keeps the
re-rendered `//` of the empty netloc), and normalizing `"//"` again
returns `""`. -/
theorem claim_C9_counterexample :
    normalize_url "////".data = .ok "//".data ∧
    normalize_url "//".data = .ok [] ∧
    ("//".data : Str) ≠ [] :=
  ⟨rfl, rfl, by decide⟩

/-- C9 (corrected): `normalize_url` IS idempotent on URLs that parse
with a nonempty netloc, a `';'`-free path, no params, and a query
without trailing slashes: the normalized form of such a URL normalizes
to itself.  (Without these conditions idempotence fails, see the
counterexample.) -/
theorem claim_C9 (u v : Str) (p : ParseResult)
    (hp : urlparse u [] = .ok p) (hn : p.netloc ≠ [])
    (hsemi : ';' ∉ p.path) (hparams : p.params = [])
    (hqs : rstripSlash p.query = p.query)
    (hv : normalize_url u = .ok v) :
    normalize_url v = .ok v := by
  obtain ⟨w1, w2, w3, w4, w5, w6, w7, w8, w9⟩ := urlparse_wf hp schemeOk_nil
  have hslash : ∀ c ∈ p.netloc, c ≠ '/' := by
    intro c hc hce
    have h2 := w2 c hc
    rw [hce] at h2
    norm_num [netlocDelim] at h2
  have hpath2 : rejoinParams p.path p.params = p.path := by
    rw [hparams, rejoinParams, if_neg (by simp)]
  obtain ⟨hvne, hsplit⟩ := urlsplit_reparse p.scheme p.netloc
    (rejoinParams p.path p.params) p.query hn w2 w3 w1 w4 w5 w6 w7 w8 w9
  have hveq : v = rstripSlash (urlunsplit p.scheme p.netloc
      (rejoinParams p.path p.params) p.query []) := by
    rw [normalize_url_elim hp] at hv
    have hup : urlunparse { p with fragment := [] } =
        urlunsplit p.scheme p.netloc (rejoinParams p.path p.params) p.query [] := rfl
    rw [hup, if_neg hvne] at hv
    exact (Except.ok.inj hv).symm
  have hvnil : v ≠ [] := by
    rw [hveq]
    exact hvne
  rw [← hveq] at hsplit
  have hsemiSP : ';' ∉ slashPath (rejoinParams p.path p.params) := by
    intro hc
    rcases mem_slashPath hc with h | h
    · exact absurd h (by decide)
    · rw [hpath2] at h
      exact hsemi h
  by_cases hq0 : p.query = []
  · -- no query: the re-split path is the stripped slash-path
    simp only [if_pos hq0] at hsplit
    have hsemiP : ';' ∉ rstripSlash (slashPath (rejoinParams p.path p.params)) :=
      fun hc => hsemiSP (mem_rstripSlash hc)
    have hpv : urlparse v [] = .ok ⟨p.scheme, p.netloc,
        rstripSlash (slashPath (rejoinParams p.path p.params)), [], [], []⟩ := by
      unfold urlparse
      rw [hsplit, okBind]
      rw [if_neg (fun hcon => hsemiP hcon.2)]
    have hN2 : urlunparse { (⟨p.scheme, p.netloc,
        rstripSlash (slashPath (rejoinParams p.path p.params)), [], [], []⟩ :
          ParseResult) with fragment := [] } = v := by
      show urlunsplit p.scheme p.netloc
        (rejoinParams (rstripSlash (slashPath (rejoinParams p.path p.params))) [])
        [] [] = v
      rw [show rejoinParams
            (rstripSlash (slashPath (rejoinParams p.path p.params))) [] =
          rstripSlash (slashPath (rejoinParams p.path p.params)) from by
        rw [rejoinParams, if_neg (by simp)]]
      rw [urlunsplit_ne_noq _ _ _ hn, slashPath_rstrip]
      rw [hveq, hq0, normalize_form_noq _ _ _ hn hslash]
    have hstable : rstripSlash v = v := by
      rw [hveq, hq0, normalize_form_noq _ _ _ hn hslash]
      by_cases hP0 : rstripSlash (slashPath (rejoinParams p.path p.params)) = []
      · rw [hP0, List.append_nil]
        exact rstripSlash_eq_self_append hn hslash
      · obtain ⟨y, b, hyb, hb⟩ := rstrip_stable_last (rstripSlash_idem _) hP0
        rw [hyb, ← List.append_assoc]
        exact rstripSlash_eq_self_append (by simp) (by
          intro c hc
          rw [List.mem_singleton] at hc
          rw [hc]
          exact hb)
    rw [normalize_url_elim hpv, hN2, hstable, if_neg hvnil]
  · -- nonempty query: the re-split path is the slash-path itself
    simp only [if_neg hq0] at hsplit
    rw [hqs] at hsplit
    have hpv : urlparse v [] = .ok ⟨p.scheme, p.netloc,
        slashPath (rejoinParams p.path p.params), [], p.query, []⟩ := by
      unfold urlparse
      rw [hsplit, okBind]
      rw [if_neg (fun hcon => hsemiSP hcon.2)]
    have hN2 : urlunparse { (⟨p.scheme, p.netloc,
        slashPath (rejoinParams p.path p.params), [], p.query, []⟩ :
          ParseResult) with fragment := [] } = v := by
      show urlunsplit p.scheme p.netloc
        (rejoinParams (slashPath (rejoinParams p.path p.params)) []) p.query [] = v
      rw [show rejoinParams (slashPath (rejoinParams p.path p.params)) [] =
          slashPath (rejoinParams p.path p.params) from by
        rw [rejoinParams, if_neg (by simp)]]
      rw [urlunsplit_ne_q _ _ _ _ hn hq0, slashPath_idem]
      rw [hveq, normalize_form_q _ _ _ _ hn hslash hq0, hqs]
    have hstable : rstripSlash v = v := by
      rw [hveq, normalize_form_q _ _ _ _ hn hslash hq0, hqs]
      obtain ⟨y, b, hyb, hb⟩ := rstrip_stable_last hqs hq0
      rw [hyb]
      rw [show ('?' :: (y ++ [b]) : Str) = ('?' :: y) ++ [b] from by simp]
      rw [← List.append_assoc, ← List.append_assoc]
      exact rstripSlash_eq_self_append (by simp) (by
        intro c hc
        rw [List.mem_singleton] at hc
        rw [hc]
        exact hb)
    rw [normalize_url_elim hpv, hN2, hstable, if_neg hvnil]

/-- Witness for C9: `http://a.com/x/` normalizes to `http://a.com/x`,
which normalizes to itself. -/
theorem claim_C9_witness :
    normalize_url "http://a.com/x".data = .ok "http://a.com/x".data :=
  claim_C9 "http://a.com/x/".data "http://a.com/x".data
    ⟨"http".data, "a.com".data, "/x/".data, [], [], []⟩
    rfl (by decide) (by decide) rfl rfl rfl

end Scraper
